import Mathlib

/-!
# Slab container (src/slab.h): shallow embedding and verified properties

The C++ class `Slab<T>` keeps two private vectors:

* `slots_pool : std::vector<std::optional<T>>`, the slots;
* `stack_of_removed : std::vector<size_t>`, the stack of keys of vacated slots.

A `std::vector` is embedded as a `List` in index order, so `push_back x` is
`xs ++ [x]`, `back()` is the last element and `pop_back()` is `dropLast`.
A `std::optional<T>` is an `Option T`, `std::nullopt` is `none`.
`size_t` values are natural numbers; where the source subtracts two `size_t` values
that are not trivially ordered (`size()`, and `size() - 1` in `out`) the
subtraction is embedded with the wrap-around of 64-bit unsigned arithmetic.  The
`int` counter of `out` is a natural number bounded by `INT_MAX`.

Calls that do not return normally are embedded as `none`:
`emplace_back` on a vector that already holds `SIZE_MAX` elements (the length of a
vector is itself a `size_t`, the library throws `std::length_error`), and indexing
a vector outside its bounds, dereferencing an empty optional or overflowing a
signed counter (undefined behaviour).  Capacities are not part of the logical
state of a pool; they are tracked next to it (`Tracked`).
-/

namespace Slab

/-- Number of values of the type `size_t` (64-bit). -/
def SIZE_MOD : Nat := 18446744073709551616

/-- The largest `size_t`. -/
def SIZE_MAX : Nat := 18446744073709551615

/-- Subtraction of two `size_t` values, with unsigned wrap-around. -/
def size_t_sub (a b : Nat) : Nat :=
  (a % SIZE_MOD + (SIZE_MOD - b % SIZE_MOD)) % SIZE_MOD

end Slab

/-- The two data members of `class Slab`. -/
structure Slab (T : Type) where
  /-- Slots of elements. -/
  slots_pool : List (Option T)
  /-- Stack of removed elements slots keys; the top of the stack is the last element. -/
  stack_of_removed : List Nat
deriving DecidableEq, Repr

namespace Slab

variable {T : Type}

/-- Default constructor `Slab()`: both vectors empty. -/
def new : Slab T := ⟨[], []⟩

/-- Constructor `Slab(size_t start_capacity)`: the two `reserve` calls change
capacities only, both vectors stay empty whatever the requested capacity. -/
def with_capacity (_start_capacity : Nat) : Slab T := ⟨[], []⟩

/-- Constructor `Slab(std::initializer_list<T> init)`: `reserve(init.size())`
followed by one `push_back` per value, in order.  The result is `none` when the
batch is longer than a vector can be. -/
def from_init (init : List T) : Option (Slab T) :=
  if init.length ≤ SIZE_MAX then
    some ⟨init.foldl (fun slots val => slots ++ [some val]) [], []⟩
  else none

/-- Both overloads `insert(T &&obj)` and `insert(T &obj)`: they differ only in how
the stored object is constructed (move or copy).  Returns the key and the new pool. -/
def insert (s : Slab T) (obj : T) : Option (Nat × Slab T) :=
  if h : s.stack_of_removed = [] then
    if s.slots_pool.length < SIZE_MAX then
      let slots := s.slots_pool ++ [some obj]
      some (slots.length - 1, ⟨slots, s.stack_of_removed⟩)
    else none
  else
    let key := s.stack_of_removed.getLast h
    if key < s.slots_pool.length then
      some (key, ⟨s.slots_pool.set key (some obj), s.stack_of_removed.dropLast⟩)
    else none

/-- Member `contains(size_t key)`. -/
def contains (s : Slab T) (key : Nat) : Bool :=
  if h : key < s.slots_pool.length then s.slots_pool[key].isSome else false

/-- Member `get(size_t key)`, both forms: the object stored under the key, `none`
where the source has undefined behaviour (key out of range, or vacant slot). -/
def get (s : Slab T) (key : Nat) : Option T :=
  if h : key < s.slots_pool.length then s.slots_pool[key] else none

/-- Member `remove(size_t key)`: the returned flag and the new pool. -/
def remove (s : Slab T) (key : Nat) : Bool × Slab T :=
  if h : key ≥ s.slots_pool.length then (false, s)
  else
    have hlt : key < s.slots_pool.length := Nat.lt_of_not_ge h
    if s.slots_pool[key].isNone then (false, s)
    else (true, ⟨s.slots_pool.set key none, s.stack_of_removed ++ [key]⟩)

/-- Member `vacant_key()`. -/
def vacant_key (s : Slab T) : Nat :=
  if h : s.stack_of_removed = [] then s.slots_pool.length
  else s.stack_of_removed.getLast h

/-- Member `take(size_t key)`: the returned optional and the new pool.  `res`
starts as `nullopt`; the `swap` leaves the old content of the slot in `res` and
`nullopt` in the slot. -/
def take (s : Slab T) (key : Nat) : Option T × Slab T :=
  if h : key ≥ s.slots_pool.length then (none, s)
  else
    have hlt : key < s.slots_pool.length := Nat.lt_of_not_ge h
    let res := s.slots_pool[key]
    let slots := s.slots_pool.set key none
    if res.isSome then (res, ⟨slots, s.stack_of_removed ++ [key]⟩)
    else (res, ⟨slots, s.stack_of_removed⟩)

/-- Member `size()`: an unsigned subtraction of the two vector lengths. -/
def size (s : Slab T) : Nat :=
  size_t_sub s.slots_pool.length s.stack_of_removed.length

/-- Member `empty()`. -/
def empty (s : Slab T) : Bool := size s == 0

/-- The pools a program can hold: the data members are private, so a pool is
produced by a constructor and changed only by `insert`, `remove` and `take`. -/
inductive Reachable : Slab T → Prop
  | default : Reachable new
  | capacity (c : Nat) : Reachable (with_capacity c)
  | batch {init : List T} {s : Slab T} : from_init init = some s → Reachable s
  | insert {s s' : Slab T} {obj : T} {key : Nat} :
      Reachable s → insert s obj = some (key, s') → Reachable s'
  | remove {s : Slab T} (key : Nat) : Reachable s → Reachable (remove s key).2
  | take {s : Slab T} (key : Nat) : Reachable s → Reachable (take s key).2

/-- Invariant kept by every operation: the slot vector has a representable length,
the stack of removed keys has no duplicates, and a key is on the stack exactly
when it addresses a slot holding `nullopt`. -/
structure Inv (s : Slab T) : Prop where
  bound : s.slots_pool.length ≤ SIZE_MAX
  nodup : s.stack_of_removed.Nodup
  mem_iff : ∀ i, i ∈ s.stack_of_removed ↔ s.slots_pool[i]? = some none

/-- The pool after `insert(10)`, `insert(20)`, `insert(30)`, `remove(0)` on an empty pool. -/
def ex_pool : Slab Nat := ⟨[none, some 20, some 30], [0]⟩

/-! ## Cursors

A cursor of the class `Iterator` is a reference to its pool and a position `pos`;
here it is the position, the pool being passed along. -/

/-- Constructor `Iterator(Slab<T> &slab, size_t p)`: the position reached from `p`
by the loop that skips slots holding `nullopt`. -/
def Iterator.new (s : Slab T) (p : Nat) : Nat :=
  if h : p < s.slots_pool.length then
    if s.slots_pool[p].isNone then Iterator.new s (p + 1) else p
  else p
termination_by s.slots_pool.length - p

/-- Member `Iterator::operator++`: `pos` is incremented before each test of the
loop condition. -/
def Iterator.next (s : Slab T) (pos : Nat) : Nat :=
  if h : pos + 1 < s.slots_pool.length then
    if s.slots_pool[pos + 1].isNone then Iterator.next s (pos + 1) else pos + 1
  else pos + 1
termination_by s.slots_pool.length - pos

/-- Member `Iterator::operator--`: `pos` is decremented before each test of the
loop condition `--pos > 0 && slab.slots_pool[pos] == std::nullopt`.  The result is
`none` where the source has undefined behaviour: at `pos == 0` the decrement wraps
to `SIZE_MAX` and the slot vector is indexed there, and a position beyond the last
slot is indexed out of bounds.  The local `int s` of the source is never read. -/
def Iterator.prev (s : Slab T) : Nat → Option Nat
  | 0 => none
  | pos + 1 =>
    if pos > 0 then
      if h : pos < s.slots_pool.length then
        if s.slots_pool[pos].isNone then Iterator.prev s pos else some pos
      else none
    else some pos

/-- Member `Iterator::operator*` (and `operator->`): the object at the position,
`none` where dereferencing is undefined (no slot, or a slot holding `nullopt`). -/
def Iterator.deref (s : Slab T) (pos : Nat) : Option T :=
  if h : pos < s.slots_pool.length then s.slots_pool[pos] else none

/-- Member `KeyValIterator::operator*`: the position paired with the object. -/
def KeyValIterator.deref (s : Slab T) (pos : Nat) : Option (Nat × T) :=
  if h : pos < s.slots_pool.length then s.slots_pool[pos].map (fun v => (pos, v)) else none

/-- Member `begin()`. -/
def begin (s : Slab T) : Nat := Iterator.new s 0

/-- Member `end()`. -/
def end_ (s : Slab T) : Nat := Iterator.new s s.slots_pool.length

/-- Member `key_val_begin()`; a `KeyValIterator` is constructed as an `Iterator`. -/
def key_val_begin (s : Slab T) : Nat := Iterator.new s 0

/-- Member `key_val_end()`. -/
def key_val_end (s : Slab T) : Nat := Iterator.new s s.slots_pool.length

/-- The loop `for (it = first; it != end(); ++it) body(*it)`, as written by the
range-based `for` of `out` and by the standard algorithms callers apply to
`begin()`, `end()`.  `acc` is the state the body works on; the result is `none` when
a dereference or the body has undefined behaviour. -/
def for_range {α β : Type} (s : Slab T) (deref : Slab T → Nat → Option α)
    (body : β → α → Option β) (pos : Nat) (acc : β) : Option β :=
  if pos = end_ s then some acc
  else if _h : pos < s.slots_pool.length then
    match deref s pos with
    | none => none
    | some x =>
      match body acc x with
      | none => none
      | some acc' => for_range s deref body (Iterator.next s pos) acc'
  else none
termination_by s.slots_pool.length - pos
decreasing_by
  have step : ∀ n p, s.slots_pool.length - p ≤ n → p < Iterator.next s p := by
    intro n
    induction n with
    | zero =>
      intro p hp
      unfold Iterator.next
      have : ¬ p + 1 < s.slots_pool.length := by omega
      simp [this]
    | succ n ih =>
      intro p hp
      unfold Iterator.next
      split
      · split
        · have := ih (p + 1) (by omega)
          omega
        · omega
      · omega
  have := step _ pos (Nat.le_refl _)
  omega

/-- Forward traversal from `begin()` to `end()`: the objects met, in order. -/
def to_list (s : Slab T) : Option (List T) :=
  for_range s Iterator.deref (fun acc v => some (acc ++ [v])) (begin s) []

/-- Forward traversal from `key_val_begin()` to `key_val_end()`: the key-value
pairs met, in order. -/
def key_val_list (s : Slab T) : Option (List (Nat × T)) :=
  for_range s KeyValIterator.deref (fun acc kv => some (acc ++ [kv])) (key_val_begin s) []

/-- The largest `int` (32-bit). -/
def INT_MAX : Nat := 2147483647

/-- The body of the loop of `out`, on the stream and the counter `int i`:
`stream << obj; if (i < size() - 1) stream << separator; ++i;`.  The counter starts
at 0 and is only incremented, so it is never negative and its conversion to
`size_t` for the comparison with `size() - 1` keeps its value; incrementing it at
`INT_MAX` is a signed overflow, undefined behaviour, embedded as `none`. -/
def out_body (s : Slab T) (render : T → List Char) (separator : Char)
    (st : List Char × Nat) (obj : T) : Option (List Char × Nat) :=
  let stream := st.1 ++ render obj
  let stream := if st.2 < size_t_sub (size s) 1 then stream ++ [separator] else stream
  if st.2 < INT_MAX then some (stream, st.2 + 1) else none

/-- Member `out(std::ostream &stream, const char &separator)`.  The stream is the
sequence of characters written to it and `render` is `operator<<` of the element
type. -/
def out (s : Slab T) (render : T → List Char) (stream : List Char) (separator : Char) :
    Option (List Char) :=
  (for_range s Iterator.deref (out_body s render separator) (begin s) (stream, 0)).map
    Prod.fst

/-- The free `operator<<(std::ostream&, Slab<T>&)`: `out` with its default separator. -/
def operator_shl (s : Slab T) (render : T → List Char) (stream : List Char) :
    Option (List Char) :=
  out s render stream ' '

/-- The occupied slots of a run of slots whose first slot has key `p`, as key-value
pairs in the order of the run; it is used to state what a traversal yields. -/
def occupied_from : List (Option T) → Nat → List (Nat × T)
  | [], _ => []
  | none :: l, p => occupied_from l (p + 1)
  | some v :: l, p => (p, v) :: occupied_from l (p + 1)

/-- What the specification asks of a cursor: it references an occupied slot, or it
is at the position of `end()`, the slot count. -/
def Iterator.valid (s : Slab T) (pos : Nat) : Prop :=
  contains s pos = true ∨ pos = s.slots_pool.length

/-! ## Sequences of calls -/

/-- A call a client makes on a pool. -/
inductive Op (T : Type) where
  | insert (obj : T)
  | remove (key : Nat)
  | take (key : Nat)

/-- One call, on a pool paired with two counters: the inserts made so far, and the
removes that returned `true` plus the takes that returned a value so far.  `none`
when the `insert` does not return. -/
def step (st : Slab T × Nat × Nat) : Op T → Option (Slab T × Nat × Nat)
  | Op.insert obj =>
    match insert st.1 obj with
    | none => none
    | some r => some (r.2, st.2.1 + 1, st.2.2)
  | Op.remove key =>
    some ((remove st.1 key).2, st.2.1, st.2.2 + if (remove st.1 key).1 then 1 else 0)
  | Op.take key =>
    some ((take st.1 key).2, st.2.1, st.2.2 + if (take st.1 key).1.isSome then 1 else 0)

/-- A sequence of calls from a pool, both counters starting at zero. -/
def run (s : Slab T) (ops : List (Op T)) : Option (Slab T × Nat × Nat) :=
  ops.foldlM step (s, 0, 0)

/-- Vacating the listed keys in order with no other call in between; the flag
chooses `take` (true) or `remove` (false) for each key. -/
def vacate_all (s : Slab T) (keys : List (Bool × Nat)) : Slab T :=
  keys.foldl (fun s bk => if bk.1 then (take s bk.2).2 else (remove s bk.2).2) s

/-- Inserting the listed values in order with no other call in between: the keys
returned, in order, and the final pool. -/
def insert_all (s : Slab T) : List T → Option (List Nat × Slab T)
  | [] => some ([], s)
  | obj :: objs =>
    match insert s obj with
    | none => none
    | some r =>
      match insert_all r.2 objs with
      | none => none
      | some rs => some (r.1 :: rs.1, rs.2)

/-- A pool holding 2^31 + 2 values, constructed from a batch. -/
def big_pool : Slab Nat := ⟨List.replicate 2147483650 (some 0), []⟩

/-- A pool with a run of vacant slots between two occupied ones: the pool after
`insert(20)`, `insert(21)`, `insert(22)`, `insert(30)`, `remove(1)`, `remove(2)`. -/
def gap_pool : Slab Nat := ⟨[some 20, none, none, some 30], [1, 2]⟩

/-! ## Assignment through a reference

`get(size_t key)` and `Iterator::operator*` return a reference to the object held by
a slot, `*slots_pool[key]`; a caller may assign through it. -/

/-- The assignment `slab.get(key) = w`: the object held by slot `key` is replaced,
`none` where `get` has undefined behaviour (key out of range, or vacant slot). -/
def get_assign (s : Slab T) (key : Nat) (w : T) : Option (Slab T) :=
  if h : key < s.slots_pool.length then
    if s.slots_pool[key].isSome then
      some ⟨s.slots_pool.set key (some w), s.stack_of_removed⟩
    else none
  else none

/-- The assignment `*it = w` through a cursor at position `pos`: the object held by
the slot at `pos` is replaced, `none` where the dereference is undefined. -/
def Iterator.deref_assign (s : Slab T) (pos : Nat) (w : T) : Option (Slab T) :=
  if h : pos < s.slots_pool.length then
    if s.slots_pool[pos].isSome then
      some ⟨s.slots_pool.set pos (some w), s.stack_of_removed⟩
    else none
  else none

/-! ## Capacities

`slots_capacity()` and `stack_capacity()` return `capacity()` of the two vectors.
What `capacity()` is after `reserve` and `emplace_back` is decided by `std::vector`,
which is not part of the repository. -/

/-- Modelled from the spec: `std::vector::reserve(n)`, absent from the repository,
on a vector of capacity `cap`.  The spec has a capacity hint `c` "pre-reserve
storage for `c` slots and free-list capacity for `c/2` entries", reservation
affecting only capacity: the capacity becomes `n` when it was smaller. -/
def vector_reserve (cap n : Nat) : Nat := if cap < n then n else cap

/-- Modelled from the spec: the capacity left by `std::vector::emplace_back`, absent
from the repository, on a vector of `size` elements and capacity `cap`.  The spec
has the backing store "reallocate ... when capacity is exceeded" under a geometric
growth policy: with room left the capacity is kept, otherwise it becomes what the
growth policy `grow` of the library gives, and at least `size + 1`. -/
def vector_grow (grow : Nat → Nat) (size cap : Nat) : Nat :=
  if size < cap then cap else max (grow cap) (size + 1)

/-- A pool together with the capacities of its two vectors, the values the members
`slots_capacity()` and `stack_capacity()` return. -/
structure Tracked (T : Type) where
  pool : Slab T
  slots_capacity : Nat
  stack_capacity : Nat

/-- Constructor `Slab(size_t start_capacity)` with the capacities its two `reserve`
calls leave on the freshly constructed vectors. -/
def Tracked.with_capacity (start_capacity : Nat) : Tracked T :=
  ⟨Slab.with_capacity start_capacity, vector_reserve 0 start_capacity,
    vector_reserve 0 (start_capacity / 2)⟩

/-- Member `insert` with the capacities it leaves: `emplace_back` on the slot vector
when the stack is empty; `emplace` into a slot and `pop_back` on the stack, which
allocate nothing, otherwise. -/
def Tracked.insert (grow : Nat → Nat) (t : Tracked T) (obj : T) :
    Option (Nat × Tracked T) :=
  match Slab.insert t.pool obj with
  | none => none
  | some r =>
    some (r.1, ⟨r.2,
      if t.pool.stack_of_removed = [] then
        vector_grow grow t.pool.slots_pool.length t.slots_capacity
      else t.slots_capacity,
      t.stack_capacity⟩)

/-- Inserting the listed values in order, capacities tracked: the keys returned and
the final pool with its capacities. -/
def Tracked.insert_all (grow : Nat → Nat) (t : Tracked T) :
    List T → Option (List Nat × Tracked T)
  | [] => some ([], t)
  | obj :: objs =>
    match Tracked.insert grow t obj with
    | none => none
    | some r =>
      match Tracked.insert_all grow r.2 objs with
      | none => none
      | some rs => some (r.1 :: rs.1, rs.2)

/-! ## Auxiliary facts about the operations -/

theorem contains_eq_true_iff (s : Slab T) (key : Nat) :
    contains s key = true ↔ ∃ v, s.slots_pool[key]? = some (some v) := by
  unfold contains
  by_cases h : key < s.slots_pool.length
  · simp only [h, dite_true, List.getElem?_eq_getElem, Option.some.injEq]
    exact Option.isSome_iff_exists
  · simp [h, List.getElem?_eq_none (Nat.le_of_not_lt h)]

theorem contains_eq_false_iff (s : Slab T) (key : Nat) :
    contains s key = false ↔ s.slots_pool.length ≤ key ∨ s.slots_pool[key]? = some none := by
  unfold contains
  by_cases h : key < s.slots_pool.length
  · simp [h, List.getElem?_eq_getElem, Nat.not_le.mpr h]
  · simp [h, Nat.le_of_not_lt h]

theorem contains_lt {s : Slab T} {key : Nat} (h : contains s key = true) :
    key < s.slots_pool.length := by
  unfold contains at h
  by_cases hk : key < s.slots_pool.length
  · exact hk
  · simp [hk] at h

theorem get_eq_join (s : Slab T) (key : Nat) : get s key = (s.slots_pool[key]?).join := by
  unfold get
  by_cases h : key < s.slots_pool.length
  · simp [h, List.getElem?_eq_getElem]
  · simp [h, List.getElem?_eq_none (Nat.le_of_not_lt h)]

theorem remove_of_contains {s : Slab T} {key : Nat} (h : contains s key = true) :
    remove s key = (true, ⟨s.slots_pool.set key none, s.stack_of_removed ++ [key]⟩) := by
  have hlt := contains_lt h
  unfold contains at h
  simp only [hlt, dite_true] at h
  unfold remove
  simp [Nat.not_le.mpr hlt, Option.ne_none_iff_isSome.mpr h]

theorem remove_of_not_contains {s : Slab T} {key : Nat} (h : contains s key = false) :
    remove s key = (false, s) := by
  unfold contains at h
  unfold remove
  by_cases hk : key < s.slots_pool.length
  · simp only [hk, dite_true] at h
    have hnone : s.slots_pool[key] = none := Option.not_isSome_iff_eq_none.mp (by simp [h])
    simp [Nat.not_le.mpr hk, hnone]
  · simp [Nat.le_of_not_lt hk]

theorem take_of_contains {s : Slab T} {key : Nat} (h : contains s key = true) :
    take s key = (get s key, ⟨s.slots_pool.set key none, s.stack_of_removed ++ [key]⟩) := by
  have hlt := contains_lt h
  unfold contains at h
  simp only [hlt, dite_true] at h
  unfold take get
  simp [Nat.not_le.mpr hlt, h, hlt]

theorem take_of_not_contains {s : Slab T} {key : Nat} (h : contains s key = false) :
    take s key = (none, s) := by
  unfold contains at h
  unfold take
  by_cases hk : key < s.slots_pool.length
  · simp only [hk, dite_true] at h
    have hnone : s.slots_pool[key] = none := Option.not_isSome_iff_eq_none.mp (by simp [h])
    have hset : s.slots_pool.set key none = s.slots_pool := by
      apply List.ext_getElem?
      intro i
      rw [List.getElem?_set]
      by_cases hik : key = i
      · subst hik
        simp [hk, hnone, List.getElem?_eq_getElem]
      · simp [hik]
    simp [Nat.not_le.mpr hk, hnone, hset]
  · simp [Nat.le_of_not_lt hk]

theorem insert_of_nil {s : Slab T} (obj : T) (h : s.stack_of_removed = [])
    (hroom : s.slots_pool.length < SIZE_MAX) :
    insert s obj = some (s.slots_pool.length, ⟨s.slots_pool ++ [some obj], []⟩) := by
  unfold insert
  simp [h, hroom]

theorem insert_of_concat {s : Slab T} (obj : T) {st : List Nat} {key : Nat}
    (h : s.stack_of_removed = st ++ [key]) (hkey : key < s.slots_pool.length) :
    insert s obj = some (key, ⟨s.slots_pool.set key (some obj), st⟩) := by
  unfold insert
  simp [h, hkey]

theorem vacant_key_of_nil {s : Slab T} (h : s.stack_of_removed = []) :
    vacant_key s = s.slots_pool.length := by
  unfold vacant_key
  simp [h]

theorem vacant_key_of_concat {s : Slab T} {st : List Nat} {key : Nat}
    (h : s.stack_of_removed = st ++ [key]) : vacant_key s = key := by
  unfold vacant_key
  simp [h]

/-! ## The invariant of the two vectors -/

theorem from_init_loop (init : List T) (acc : List (Option T)) :
    init.foldl (fun slots val => slots ++ [some val]) acc = acc ++ init.map some := by
  induction init generalizing acc with
  | nil => simp
  | cons a l ih => simp [ih]

theorem from_init_eq {init : List T} {s : Slab T} (h : from_init init = some s) :
    s = ⟨init.map some, []⟩ ∧ init.length ≤ SIZE_MAX := by
  unfold from_init at h
  by_cases hl : init.length ≤ SIZE_MAX
  · simp only [hl, if_true, Option.some.injEq] at h
    rw [from_init_loop] at h
    exact ⟨by simpa using h.symm, hl⟩
  · simp [hl] at h

theorem inv_new : Inv (new : Slab T) :=
  ⟨by simp [new], by simp [new], by simp [new]⟩

theorem inv_with_capacity (c : Nat) : Inv (with_capacity c : Slab T) :=
  ⟨by simp [with_capacity], by simp [with_capacity], by simp [with_capacity]⟩

theorem inv_from_init {init : List T} {s : Slab T} (h : from_init init = some s) : Inv s := by
  obtain ⟨rfl, hl⟩ := from_init_eq h
  refine ⟨by simpa using hl, by simp, ?_⟩
  intro i
  simp only [List.not_mem_nil, false_iff]
  intro hi
  rw [List.getElem?_map] at hi
  cases hv : init[i]? with
  | none => simp [hv] at hi
  | some v => simp [hv] at hi

theorem inv_insert {s s' : Slab T} {obj : T} {key : Nat} (hs : Inv s)
    (h : insert s obj = some (key, s')) : Inv s' := by
  rcases List.eq_nil_or_concat' s.stack_of_removed with hnil | ⟨st, top, hst⟩
  · by_cases hroom : s.slots_pool.length < SIZE_MAX
    · rw [insert_of_nil obj hnil hroom] at h
      simp only [Option.some.injEq, Prod.mk.injEq] at h
      obtain ⟨-, rfl⟩ := h
      refine ⟨by simp; omega, by simp, ?_⟩
      intro i
      simp only [List.not_mem_nil, false_iff]
      intro hi
      rw [List.getElem?_append] at hi
      by_cases hlt : i < s.slots_pool.length
      · simp only [hlt, if_true] at hi
        have := (hs.mem_iff i).mpr hi
        simp [hnil] at this
      · simp only [hlt, if_false] at hi
        cases hj : i - s.slots_pool.length with
        | zero => simp [hj] at hi
        | succ n => simp [hj] at hi
    · unfold insert at h
      simp [hnil, hroom] at h
  · have htop : top < s.slots_pool.length := by
      have hmem : top ∈ s.stack_of_removed := by simp [hst]
      have hget := (hs.mem_iff top).mp hmem
      by_contra hge
      rw [List.getElem?_eq_none (Nat.le_of_not_lt hge)] at hget
      simp at hget
    rw [insert_of_concat obj hst htop] at h
    simp only [Option.some.injEq, Prod.mk.injEq] at h
    obtain ⟨-, rfl⟩ := h
    have hnd := hs.nodup
    rw [hst] at hnd
    have hnd2 := List.nodup_append.mp hnd
    have hnotin : top ∉ st := fun hmem => hnd2.2.2 hmem (by simp)
    refine ⟨by simpa using hs.bound, hnd2.1, ?_⟩
    intro i
    by_cases hik : top = i
    · subst hik
      simp [hnotin, htop]
    · simp only [List.getElem?_set_ne hik]
      rw [← hs.mem_iff i, hst]
      simp [Ne.symm hik]

theorem inv_remove {s : Slab T} (key : Nat) (hs : Inv s) : Inv (remove s key).2 := by
  cases hc : contains s key with
  | false => rw [remove_of_not_contains hc]; exact hs
  | true =>
    rw [remove_of_contains hc]
    have hlt := contains_lt hc
    obtain ⟨v, hv⟩ := (contains_eq_true_iff s key).mp hc
    have hnotin : key ∉ s.stack_of_removed := by
      intro hmem
      have := (hs.mem_iff key).mp hmem
      rw [hv] at this
      simp at this
    refine ⟨by simpa using hs.bound, ?_, ?_⟩
    · apply List.nodup_append.mpr
      refine ⟨hs.nodup, by simp, ?_⟩
      intro a ha hb
      simp only [List.mem_singleton] at hb
      subst hb
      exact hnotin ha
    · intro i
      by_cases hik : key = i
      · subst hik
        simp [hlt]
      · simp only [List.getElem?_set_ne hik]
        rw [← hs.mem_iff i]
        simp [Ne.symm hik]

theorem take_snd_eq_remove_snd (s : Slab T) (key : Nat) : (take s key).2 = (remove s key).2 := by
  cases hc : contains s key with
  | false => rw [take_of_not_contains hc, remove_of_not_contains hc]
  | true => rw [take_of_contains hc, remove_of_contains hc]

theorem inv_take {s : Slab T} (key : Nat) (hs : Inv s) : Inv (take s key).2 := by
  rw [take_snd_eq_remove_snd]
  exact inv_remove key hs

theorem reachable_inv {s : Slab T} (h : Reachable s) : Inv s := by
  induction h with
  | default => exact inv_new
  | capacity c => exact inv_with_capacity c
  | batch hb => exact inv_from_init hb
  | insert _ hi ih => exact inv_insert ih hi
  | remove key _ ih => exact inv_remove key ih
  | take key _ ih => exact inv_take key ih

theorem nodup_length_le_of_lt {l : List Nat} {n : Nat} (hnd : l.Nodup)
    (hlt : ∀ i ∈ l, i < n) : l.length ≤ n := by
  have hsub : l ⊆ List.range n := fun i hi => List.mem_range.mpr (hlt i hi)
  simpa using (hnd.subperm hsub).length_le

theorem Inv.mem_lt {s : Slab T} (hs : Inv s) {i : Nat} (hi : i ∈ s.stack_of_removed) :
    i < s.slots_pool.length := by
  have hget := (hs.mem_iff i).mp hi
  by_contra hge
  rw [List.getElem?_eq_none (Nat.le_of_not_lt hge)] at hget
  simp at hget

theorem Inv.not_mem_of_contains {s : Slab T} (hs : Inv s) {key : Nat}
    (hc : contains s key = true) : key ∉ s.stack_of_removed := by
  intro hmem
  obtain ⟨v, hv⟩ := (contains_eq_true_iff s key).mp hc
  have := (hs.mem_iff key).mp hmem
  rw [hv] at this
  simp at this

theorem Inv.stack_length_le {s : Slab T} (hs : Inv s) :
    s.stack_of_removed.length ≤ s.slots_pool.length :=
  nodup_length_le_of_lt hs.nodup (fun _ hi => hs.mem_lt hi)

theorem Inv.stack_length_lt {s : Slab T} (hs : Inv s) {key : Nat}
    (hc : contains s key = true) : s.stack_of_removed.length < s.slots_pool.length := by
  have hnd : (key :: s.stack_of_removed).Nodup :=
    List.nodup_cons.mpr ⟨hs.not_mem_of_contains hc, hs.nodup⟩
  have hlt : ∀ i ∈ key :: s.stack_of_removed, i < s.slots_pool.length := by
    intro i hi
    rcases List.mem_cons.mp hi with rfl | hi
    · exact contains_lt hc
    · exact hs.mem_lt hi
  have := nodup_length_le_of_lt hnd hlt
  simpa using this

theorem Inv.size_eq {s : Slab T} (hs : Inv s) :
    size s = s.slots_pool.length - s.stack_of_removed.length := by
  have h1 := hs.bound
  have h2 := hs.stack_length_le
  unfold size size_t_sub SIZE_MOD
  unfold SIZE_MAX at h1
  omega

theorem Inv.insert_isSome {s : Slab T} (hs : Inv s) (obj : T)
    (hroom : s.stack_of_removed = [] → s.slots_pool.length < SIZE_MAX) :
    (insert s obj).isSome = true := by
  rcases List.eq_nil_or_concat' s.stack_of_removed with hnil | ⟨st, top, hst⟩
  · rw [insert_of_nil obj hnil (hroom hnil)]; rfl
  · have htop : top < s.slots_pool.length := hs.mem_lt (by simp [hst])
    rw [insert_of_concat obj hst htop]; rfl

/-- What a returning `insert` did, in terms of the invariant: either the stack was
empty and the slot vector grew, or the top of the stack was popped and its slot,
which held `nullopt`, now holds the object. -/
theorem Inv.insert_cases {s s' : Slab T} (hs : Inv s) {obj : T} {key : Nat}
    (h : insert s obj = some (key, s')) :
    (s.stack_of_removed = [] ∧ s.slots_pool.length < SIZE_MAX ∧ key = s.slots_pool.length ∧
      s' = ⟨s.slots_pool ++ [some obj], []⟩) ∨
    (∃ st, s.stack_of_removed = st ++ [key] ∧ key < s.slots_pool.length ∧
      s.slots_pool[key]? = some none ∧ s' = ⟨s.slots_pool.set key (some obj), st⟩) := by
  rcases List.eq_nil_or_concat' s.stack_of_removed with hnil | ⟨st, top, hst⟩
  · by_cases hroom : s.slots_pool.length < SIZE_MAX
    · rw [insert_of_nil obj hnil hroom] at h
      simp only [Option.some.injEq, Prod.mk.injEq] at h
      exact Or.inl ⟨hnil, hroom, h.1.symm, h.2.symm⟩
    · unfold insert at h
      simp [hnil, hroom] at h
  · have hmem : top ∈ s.stack_of_removed := by simp [hst]
    have htop : top < s.slots_pool.length := hs.mem_lt hmem
    rw [insert_of_concat obj hst htop] at h
    simp only [Option.some.injEq, Prod.mk.injEq] at h
    obtain ⟨rfl, rfl⟩ := h
    exact Or.inr ⟨st, hst, htop, (hs.mem_iff top).mp hmem, rfl⟩

theorem contains_congr {s s' : Slab T} {key : Nat}
    (h : s'.slots_pool[key]? = s.slots_pool[key]?) : contains s' key = contains s key := by
  rw [Bool.eq_iff_iff, contains_eq_true_iff, contains_eq_true_iff, h]

theorem get_congr {s s' : Slab T} {key : Nat}
    (h : s'.slots_pool[key]? = s.slots_pool[key]?) : get s' key = get s key := by
  rw [get_eq_join, get_eq_join, h]

theorem Inv.insert_slot {s s' : Slab T} (hs : Inv s) {obj : T} {key : Nat}
    (h : insert s obj = some (key, s')) : s'.slots_pool[key]? = some (some obj) := by
  rcases hs.insert_cases h with ⟨-, -, rfl, rfl⟩ | ⟨st, -, hlt, -, rfl⟩
  · simp
  · simp [hlt]

theorem Inv.insert_slot_ne {s s' : Slab T} (hs : Inv s) {obj : T} {key : Nat}
    (h : insert s obj = some (key, s')) {j : Nat} (hj : j ≠ key) :
    s'.slots_pool[j]? = s.slots_pool[j]? := by
  rcases hs.insert_cases h with ⟨-, -, rfl, rfl⟩ | ⟨st, -, -, -, rfl⟩
  · show (s.slots_pool ++ [some obj])[j]? = s.slots_pool[j]?
    rcases Nat.lt_or_gt_of_ne hj with hlt | hgt
    · rw [List.getElem?_append_left hlt]
    · rw [List.getElem?_eq_none (by simp; omega), List.getElem?_eq_none (by omega)]
  · exact List.getElem?_set_ne (Ne.symm hj)

theorem Inv.insert_key_vacant {s s' : Slab T} (hs : Inv s) {obj : T} {key : Nat}
    (h : insert s obj = some (key, s')) : contains s key = false := by
  rw [contains_eq_false_iff]
  rcases hs.insert_cases h with ⟨-, -, rfl, -⟩ | ⟨st, -, -, hvac, -⟩
  · exact Or.inl (Nat.le_refl _)
  · exact Or.inr hvac

theorem Inv.insert_size {s s' : Slab T} (hs : Inv s) {obj : T} {key : Nat}
    (h : insert s obj = some (key, s')) : size s' = size s + 1 := by
  have hs' := inv_insert hs h
  rw [hs'.size_eq, hs.size_eq]
  have hle := hs.stack_length_le
  rcases hs.insert_cases h with ⟨hnil, -, -, rfl⟩ | ⟨st, hst, -, -, rfl⟩
  · simp [hnil]
  · rw [hst] at hle ⊢
    simp only [List.length_set, List.length_append, List.length_singleton] at hle ⊢
    omega

theorem remove_slot_ne (s : Slab T) {key j : Nat} (hj : j ≠ key) :
    (remove s key).2.slots_pool[j]? = s.slots_pool[j]? := by
  cases hc : contains s key with
  | false => rw [remove_of_not_contains hc]
  | true => rw [remove_of_contains hc]; exact List.getElem?_set_ne (Ne.symm hj)

theorem remove_slot_self {s : Slab T} {key : Nat} (hc : contains s key = true) :
    (remove s key).2.slots_pool[key]? = some none := by
  rw [remove_of_contains hc]
  simp [contains_lt hc]

theorem Inv.remove_size {s : Slab T} (hs : Inv s) {key : Nat} (hc : contains s key = true) :
    size (remove s key).2 + 1 = size s := by
  have hs' := inv_remove key hs
  rw [hs'.size_eq, hs.size_eq]
  have hlt := hs.stack_length_lt hc
  rw [remove_of_contains hc]
  simp only [List.length_set, List.length_append, List.length_singleton]
  omega

/-! ## The example pool is reachable -/

theorem ex_pool_reachable : Reachable ex_pool :=
  have h1 : Reachable (⟨[some 10], []⟩ : Slab Nat) :=
    @Reachable.insert Nat new ⟨[some 10], []⟩ 10 0 Reachable.default (by decide)
  have h2 : Reachable (⟨[some 10, some 20], []⟩ : Slab Nat) :=
    @Reachable.insert Nat ⟨[some 10], []⟩ ⟨[some 10, some 20], []⟩ 20 1 h1 (by decide)
  have h3 : Reachable (⟨[some 10, some 20, some 30], []⟩ : Slab Nat) :=
    @Reachable.insert Nat ⟨[some 10, some 20], []⟩ ⟨[some 10, some 20, some 30], []⟩ 30 2 h2
      (by decide)
  Reachable.remove 0 h3

/-! ## Verified properties -/

/-- C1 (free-list invariant).  For every pool produced by a constructor and any
finite sequence of `insert`, `remove` and `take` calls: every key on the stack of
removed keys is below the slot count and addresses a vacant slot; every vacant
slot has its key on the stack exactly once; the stack has no duplicates; and a
slot is occupied iff its key is not on the stack. -/
theorem free_list_invariant (s : Slab T) (h : Reachable s) :
    (∀ i ∈ s.stack_of_removed, i < s.slots_pool.length ∧ contains s i = false) ∧
    (∀ i, i < s.slots_pool.length → contains s i = false →
      s.stack_of_removed.count i = 1) ∧
    s.stack_of_removed.Nodup ∧
    (∀ i, i < s.slots_pool.length → (contains s i = true ↔ i ∉ s.stack_of_removed)) := by
  have hs := reachable_inv h
  have hvac : ∀ i, i < s.slots_pool.length → contains s i = false →
      i ∈ s.stack_of_removed := by
    intro i hi hc
    rcases (contains_eq_false_iff s i).mp hc with hge | hv
    · omega
    · exact (hs.mem_iff i).mpr hv
  refine ⟨?_, ?_, hs.nodup, ?_⟩
  · intro i hi
    exact ⟨hs.mem_lt hi, (contains_eq_false_iff s i).mpr (Or.inr ((hs.mem_iff i).mp hi))⟩
  · intro i hi hc
    exact List.count_eq_one_of_mem hs.nodup (hvac i hi hc)
  · intro i hi
    constructor
    · exact fun hc => hs.not_mem_of_contains hc
    · intro hnot
      cases hc : contains s i with
      | true => rfl
      | false => exact absurd (hvac i hi hc) hnot

/-- Instance of the free-list invariant at the example pool. -/
theorem free_list_invariant_witness :
    Reachable ex_pool ∧
    (∀ i ∈ ex_pool.stack_of_removed, i < ex_pool.slots_pool.length ∧ contains ex_pool i = false) ∧
    (∀ i, i < ex_pool.slots_pool.length → contains ex_pool i = false →
      ex_pool.stack_of_removed.count i = 1) ∧
    ex_pool.stack_of_removed.Nodup ∧
    (∀ i, i < ex_pool.slots_pool.length →
      (contains ex_pool i = true ↔ i ∉ ex_pool.stack_of_removed)) :=
  ⟨ex_pool_reachable, free_list_invariant ex_pool ex_pool_reachable⟩

/-- C2 (insert postcondition).  For every reachable pool and every value `v`:
`insert(v)` returns whenever the slot vector can still grow or a vacated key is
available, and if `k = insert(v)` then afterwards `contains(k)` is true, `get(k)`
is `v`, and `size()` is exactly one larger than before. -/
theorem insert_postcondition (s : Slab T) (v : T) (hs : Reachable s) :
    ((s.stack_of_removed = [] → s.slots_pool.length < SIZE_MAX) →
      (insert s v).isSome = true) ∧
    (∀ k s', insert s v = some (k, s') →
      contains s' k = true ∧ get s' k = some v ∧ size s' = size s + 1) := by
  have hi := reachable_inv hs
  refine ⟨hi.insert_isSome v, ?_⟩
  intro k s' h
  have hslot := hi.insert_slot h
  refine ⟨(contains_eq_true_iff s' k).mpr ⟨v, hslot⟩, ?_, hi.insert_size h⟩
  rw [get_eq_join, hslot]
  rfl

/-- Instance of the insert postcondition: inserting 40 into the example pool. -/
theorem insert_postcondition_witness :
    Reachable ex_pool ∧
    ((ex_pool.stack_of_removed = [] → ex_pool.slots_pool.length < SIZE_MAX) →
      (insert ex_pool 40).isSome = true) ∧
    (∀ k s', insert ex_pool 40 = some (k, s') →
      contains s' k = true ∧ get s' k = some 40 ∧ size s' = size ex_pool + 1) :=
  ⟨ex_pool_reachable, insert_postcondition ex_pool 40 ex_pool_reachable⟩

/-- C3 (vacant_key agrees with insert).  `vacant_key()` is a `const` member, here a
function of the pool with no resulting pool.  For every pool it is the top of the
stack of removed keys when that stack is non-empty, otherwise the slot count; an
`insert` made right after returns exactly that key, growing the slot vector by one
only when the stack was empty and leaving the slot count unchanged otherwise; and
on a reachable pool that `insert` does return (given room to grow when it must). -/
theorem vacant_key_agrees_with_insert (s : Slab T) :
    (s.stack_of_removed = [] → vacant_key s = s.slots_pool.length) ∧
    (∀ st top, s.stack_of_removed = st ++ [top] → vacant_key s = top) ∧
    (∀ v k s', insert s v = some (k, s') →
      k = vacant_key s ∧
      (s.stack_of_removed = [] → s'.slots_pool.length = s.slots_pool.length + 1) ∧
      (s.stack_of_removed ≠ [] → s'.slots_pool.length = s.slots_pool.length)) ∧
    (Reachable s → (s.stack_of_removed = [] → s.slots_pool.length < SIZE_MAX) →
      ∀ v, (insert s v).isSome = true) := by
  refine ⟨vacant_key_of_nil, fun st top h => vacant_key_of_concat h, ?_, ?_⟩
  · intro v k s' h
    rcases List.eq_nil_or_concat' s.stack_of_removed with hnil | ⟨st, top, hst⟩
    · by_cases hroom : s.slots_pool.length < SIZE_MAX
      · rw [insert_of_nil v hnil hroom] at h
        simp only [Option.some.injEq, Prod.mk.injEq] at h
        obtain ⟨rfl, rfl⟩ := h
        exact ⟨(vacant_key_of_nil hnil).symm, fun _ => by simp, fun hne => absurd hnil hne⟩
      · unfold insert at h
        simp [hnil, hroom] at h
    · have hne : s.stack_of_removed ≠ [] := by simp [hst]
      by_cases htop : top < s.slots_pool.length
      · rw [insert_of_concat v hst htop] at h
        simp only [Option.some.injEq, Prod.mk.injEq] at h
        obtain ⟨rfl, rfl⟩ := h
        exact ⟨(vacant_key_of_concat hst).symm, fun hnil => absurd hnil hne, fun _ => by simp⟩
      · unfold insert at h
        simp [hst, htop] at h
  · intro hr hroom v
    exact (reachable_inv hr).insert_isSome v hroom

/-- Instance at the example pool: `vacant_key()` is 0 and `insert(40)` returns 0. -/
theorem vacant_key_agrees_with_insert_witness :
    vacant_key ex_pool = 0 ∧
    insert ex_pool 40 = some (0, ⟨[some 40, some 20, some 30], []⟩) ∧
    (0 = vacant_key ex_pool ∧
      (ex_pool.stack_of_removed = [] →
        (⟨[some 40, some 20, some 30], []⟩ : Slab Nat).slots_pool.length =
          ex_pool.slots_pool.length + 1) ∧
      (ex_pool.stack_of_removed ≠ [] →
        (⟨[some 40, some 20, some 30], []⟩ : Slab Nat).slots_pool.length =
          ex_pool.slots_pool.length)) :=
  ⟨by decide, by decide,
    (vacant_key_agrees_with_insert ex_pool).2.2.1 40 0 ⟨[some 40, some 20, some 30], []⟩
      (by decide)⟩

/-- C4 (key uniqueness).  For every reachable pool, the key returned by `insert`
was not occupied immediately before the call; every key that was occupied is a
different key and still holds its value afterwards, so no two occupied values
share a key. -/
theorem insert_key_unique (s : Slab T) (hs : Reachable s) (v : T) (k : Nat) (s' : Slab T)
    (h : insert s v = some (k, s')) :
    contains s k = false ∧
    (∀ j, contains s j = true → j ≠ k ∧ contains s' j = true ∧ get s' j = get s j) := by
  have hi := reachable_inv hs
  have hvac := hi.insert_key_vacant h
  refine ⟨hvac, ?_⟩
  intro j hj
  have hne : j ≠ k := by
    rintro rfl
    rw [hvac] at hj
    exact Bool.false_ne_true hj
  have hslot := hi.insert_slot_ne h hne
  exact ⟨hne, by rw [contains_congr hslot, hj], get_congr hslot⟩

/-- Instance of key uniqueness: `insert(40)` on the example pool returns the vacant key 0. -/
theorem insert_key_unique_witness :
    Reachable ex_pool ∧
    insert ex_pool 40 = some (0, ⟨[some 40, some 20, some 30], []⟩) ∧
    contains ex_pool 0 = false ∧
    (∀ j, contains ex_pool j = true →
      j ≠ 0 ∧ contains (⟨[some 40, some 20, some 30], []⟩ : Slab Nat) j = true ∧
        get (⟨[some 40, some 20, some 30], []⟩ : Slab Nat) j = get ex_pool j) :=
  ⟨ex_pool_reachable, by decide,
    insert_key_unique ex_pool ex_pool_reachable 40 0 ⟨[some 40, some 20, some 30], []⟩
      (by decide)⟩

/-- C5 (key stability).  For every reachable pool and every occupied key `k`
holding `v`: after any `insert` (reusing a vacated slot or growing the slot
vector), and after `remove` or `take` of any other key, `contains(k)` is still
true and `get(k)` is still `v`. -/
theorem key_stability (s : Slab T) (hs : Reachable s) (k : Nat) (v : T)
    (hk : contains s k = true) (hv : get s k = some v) :
    (∀ w k' s', insert s w = some (k', s') → contains s' k = true ∧ get s' k = some v) ∧
    (∀ j, j ≠ k → contains (remove s j).2 k = true ∧ get (remove s j).2 k = some v) ∧
    (∀ j, j ≠ k → contains (take s j).2 k = true ∧ get (take s j).2 k = some v) := by
  have hi := reachable_inv hs
  have hrem : ∀ j, j ≠ k →
      contains (remove s j).2 k = true ∧ get (remove s j).2 k = some v := by
    intro j hj
    have hslot := remove_slot_ne s (Ne.symm hj)
    exact ⟨by rw [contains_congr hslot, hk], by rw [get_congr hslot, hv]⟩
  refine ⟨?_, hrem, ?_⟩
  · intro w k' s' h
    have hne : k ≠ k' := by
      rintro rfl
      rw [hi.insert_key_vacant h] at hk
      exact Bool.false_ne_true hk
    have hslot := hi.insert_slot_ne h hne
    exact ⟨by rw [contains_congr hslot, hk], by rw [get_congr hslot, hv]⟩
  · intro j hj
    rw [take_snd_eq_remove_snd]
    exact hrem j hj

/-- Instance of key stability: key 1 of the example pool holds 20. -/
theorem key_stability_witness :
    Reachable ex_pool ∧ contains ex_pool 1 = true ∧ get ex_pool 1 = some 20 ∧
    (∀ w k' s', insert ex_pool w = some (k', s') →
      contains s' 1 = true ∧ get s' 1 = some 20) ∧
    (∀ j, j ≠ 1 →
      contains (remove ex_pool j).2 1 = true ∧ get (remove ex_pool j).2 1 = some 20) ∧
    (∀ j, j ≠ 1 →
      contains (take ex_pool j).2 1 = true ∧ get (take ex_pool j).2 1 = some 20) :=
  ⟨ex_pool_reachable, by decide, by decide,
    key_stability ex_pool ex_pool_reachable 1 20 (by decide) (by decide)⟩

/-- C6 (remove fails exactly on absent keys).  For every pool and every key,
`remove(key)` returns true iff `contains(key)` was true before the call; when it
returns false (key out of range or slot vacant) the slots and the stack of removed
keys are unchanged. -/
theorem remove_fails_exactly_on_absent (s : Slab T) (key : Nat) :
    ((remove s key).1 = true ↔ contains s key = true) ∧
    ((remove s key).1 = false → (remove s key).2 = s) ∧
    (s.slots_pool.length ≤ key → remove s key = (false, s)) ∧
    (s.slots_pool[key]? = some none → remove s key = (false, s)) := by
  refine ⟨?_, ?_, ?_, ?_⟩
  · cases hc : contains s key with
    | false => simp [remove_of_not_contains hc]
    | true => simp [remove_of_contains hc]
  · cases hc : contains s key with
    | false => simp [remove_of_not_contains hc]
    | true => simp [remove_of_contains hc]
  · intro hge
    exact remove_of_not_contains ((contains_eq_false_iff s key).mpr (Or.inl hge))
  · intro hv
    exact remove_of_not_contains ((contains_eq_false_iff s key).mpr (Or.inr hv))

/-- C7 (effect of a successful remove).  For every pool and every key with
`contains(key)` true, `remove(key)` returns true and afterwards `contains(key)` is
false, the slot count is unchanged and `key` is on top of the stack of removed keys
(`vacant_key() == key`); on a reachable pool, `size()` is exactly one smaller. -/
theorem remove_success_effect (s : Slab T) (key : Nat) (hc : contains s key = true) :
    (remove s key).1 = true ∧
    contains (remove s key).2 key = false ∧
    (remove s key).2.slots_pool.length = s.slots_pool.length ∧
    vacant_key (remove s key).2 = key ∧
    (∃ st, (remove s key).2.stack_of_removed = st ++ [key]) ∧
    (Reachable s → size (remove s key).2 + 1 = size s) := by
  refine ⟨?_, ?_, ?_, ?_, ?_, ?_⟩
  · rw [remove_of_contains hc]
  · exact (contains_eq_false_iff _ key).mpr (Or.inr (remove_slot_self hc))
  · rw [remove_of_contains hc]; simp
  · have hst : (remove s key).2.stack_of_removed = s.stack_of_removed ++ [key] := by
      rw [remove_of_contains hc]
    exact vacant_key_of_concat hst
  · exact ⟨s.stack_of_removed, by rw [remove_of_contains hc]⟩
  · intro hr
    exact (reachable_inv hr).remove_size hc

/-- Instance of a successful remove: key 2 of the example pool. -/
theorem remove_success_effect_witness :
    contains ex_pool 2 = true ∧ Reachable ex_pool ∧
    ((remove ex_pool 2).1 = true ∧
    contains (remove ex_pool 2).2 2 = false ∧
    (remove ex_pool 2).2.slots_pool.length = ex_pool.slots_pool.length ∧
    vacant_key (remove ex_pool 2).2 = 2 ∧
    (∃ st, (remove ex_pool 2).2.stack_of_removed = st ++ [2]) ∧
    (Reachable ex_pool → size (remove ex_pool 2).2 + 1 = size ex_pool)) :=
  ⟨by decide, ex_pool_reachable, remove_success_effect ex_pool 2 (by decide)⟩

/-- C8 (idempotent remove).  For every pool and every occupied key, calling
`remove(key)` twice in a row returns true then false, the second call changes
nothing, and on a reachable pool `size()` decreases by exactly 1 in total. -/
theorem remove_twice (s : Slab T) (key : Nat) (hc : contains s key = true) :
    (remove s key).1 = true ∧
    (remove (remove s key).2 key).1 = false ∧
    (remove (remove s key).2 key).2 = (remove s key).2 ∧
    (Reachable s → size (remove (remove s key).2 key).2 + 1 = size s) := by
  have hvac : contains (remove s key).2 key = false :=
    (contains_eq_false_iff _ key).mpr (Or.inr (remove_slot_self hc))
  have h2 := remove_of_not_contains hvac
  refine ⟨by rw [remove_of_contains hc], by rw [h2], by rw [h2], ?_⟩
  intro hr
  rw [h2]
  exact (reachable_inv hr).remove_size hc

/-- Instance of the double remove: key 1 of the example pool. -/
theorem remove_twice_witness :
    contains ex_pool 1 = true ∧ Reachable ex_pool ∧
    ((remove ex_pool 1).1 = true ∧
    (remove (remove ex_pool 1).2 1).1 = false ∧
    (remove (remove ex_pool 1).2 1).2 = (remove ex_pool 1).2 ∧
    (Reachable ex_pool → size (remove (remove ex_pool 1).2 1).2 + 1 = size ex_pool)) :=
  ⟨by decide, ex_pool_reachable, remove_twice ex_pool 1 (by decide)⟩

/-- C9 (take result).  For every pool and every key, `take(key)` returns a present
value iff `contains(key)` was true, and that value is what `get(key)` returned
before the call; when the key is out of range or the slot is vacant it returns the
empty optional and changes neither the slots nor the stack of removed keys. -/
theorem take_result (s : Slab T) (key : Nat) :
    ((take s key).1.isSome = true ↔ contains s key = true) ∧
    (contains s key = true → ∃ v, get s key = some v ∧ (take s key).1 = some v) ∧
    (s.slots_pool.length ≤ key → take s key = (none, s)) ∧
    (s.slots_pool[key]? = some none → take s key = (none, s)) ∧
    (contains s key = false → take s key = (none, s)) := by
  have hget : contains s key = true → ∃ v, get s key = some v := by
    intro hc
    obtain ⟨v, hv⟩ := (contains_eq_true_iff s key).mp hc
    exact ⟨v, by rw [get_eq_join, hv]; rfl⟩
  refine ⟨?_, ?_, ?_, ?_, fun hc => take_of_not_contains hc⟩
  · cases hc : contains s key with
    | false => simp [take_of_not_contains hc]
    | true =>
      obtain ⟨v, hv⟩ := hget hc
      simp [take_of_contains hc, hv]
  · intro hc
    obtain ⟨v, hv⟩ := hget hc
    exact ⟨v, hv, by rw [take_of_contains hc, hv]⟩
  · intro hge
    exact take_of_not_contains ((contains_eq_false_iff s key).mpr (Or.inl hge))
  · intro hv
    exact take_of_not_contains ((contains_eq_false_iff s key).mpr (Or.inr hv))

/-- C10 (take is removal plus a returned value).  For every pool and every key, the
pool (slots and stack of removed keys) after `take(key)` is the pool after
`remove(key)` from the same starting pool, and `take` returns a present value
exactly when `remove` returns true. -/
theorem take_is_remove_with_value (s : Slab T) (key : Nat) :
    (take s key).2 = (remove s key).2 ∧
    ((take s key).1.isSome = true ↔ (remove s key).1 = true) := by
  refine ⟨take_snd_eq_remove_snd s key, ?_⟩
  cases hc : contains s key with
  | false => simp [take_of_not_contains hc, remove_of_not_contains hc]
  | true =>
    obtain ⟨v, hv⟩ := (contains_eq_true_iff s key).mp hc
    have hg : get s key = some v := by rw [get_eq_join, hv]; rfl
    simp [take_of_contains hc, remove_of_contains hc, hg]


/-! ## Auxiliary facts about cursors and traversal -/

theorem Iterator.new_of_ge {s : Slab T} {p : Nat} (h : s.slots_pool.length ≤ p) :
    Iterator.new s p = p := by
  rw [Iterator.new]
  simp [Nat.not_lt.mpr h]

theorem Iterator.new_of_vacant {s : Slab T} {p : Nat} (h : s.slots_pool[p]? = some none) :
    Iterator.new s p = Iterator.new s (p + 1) := by
  have hlt : p < s.slots_pool.length := by
    by_contra hge
    rw [List.getElem?_eq_none (Nat.le_of_not_lt hge)] at h
    simp at h
  rw [List.getElem?_eq_getElem hlt] at h
  rw [Iterator.new]
  simp only [Option.some.injEq] at h
  simp [hlt, h]

theorem Iterator.new_of_occupied {s : Slab T} {p : Nat} {v : T}
    (h : s.slots_pool[p]? = some (some v)) : Iterator.new s p = p := by
  have hlt : p < s.slots_pool.length := by
    by_contra hge
    rw [List.getElem?_eq_none (Nat.le_of_not_lt hge)] at h
    simp at h
  rw [List.getElem?_eq_getElem hlt] at h
  rw [Iterator.new]
  simp only [Option.some.injEq] at h
  simp [hlt, h]

theorem Iterator.next_eq_new (s : Slab T) (pos : Nat) :
    Iterator.next s pos = Iterator.new s (pos + 1) := by
  have key : ∀ n p, s.slots_pool.length - p ≤ n →
      Iterator.next s p = Iterator.new s (p + 1) := by
    intro n
    induction n with
    | zero =>
      intro p hp
      have hge : ¬ p + 1 < s.slots_pool.length := by omega
      rw [Iterator.next, Iterator.new]
      simp [hge]
    | succ n ih =>
      intro p hp
      rw [Iterator.next, Iterator.new]
      by_cases hlt : p + 1 < s.slots_pool.length
      · simp only [hlt, dite_true]
        rw [ih (p + 1) (by omega)]
      · simp [hlt]
  exact key _ pos (Nat.le_refl _)

theorem end_eq (s : Slab T) : end_ s = s.slots_pool.length :=
  Iterator.new_of_ge (Nat.le_refl _)

theorem for_range_new {α β : Type} (s : Slab T) (deref : Slab T → Nat → Option α)
    (f : Nat → T → α)
    (hderef : ∀ pos v, s.slots_pool[pos]? = some (some v) → deref s pos = some (f pos v))
    (body : β → α → Option β) (p : Nat) (acc : β) (hp : p ≤ s.slots_pool.length) :
    for_range s deref body (Iterator.new s p) acc =
      List.foldlM body acc
        ((occupied_from (s.slots_pool.drop p) p).map (fun kv => f kv.1 kv.2)) := by
  have key : ∀ n p acc, p ≤ s.slots_pool.length → s.slots_pool.length - p = n →
      for_range s deref body (Iterator.new s p) acc =
        List.foldlM body acc
          ((occupied_from (s.slots_pool.drop p) p).map (fun kv => f kv.1 kv.2)) := by
    intro n
    induction n with
    | zero =>
      intro p acc hp hn
      have hpe : p = s.slots_pool.length := by omega
      subst hpe
      rw [Iterator.new_of_ge (Nat.le_refl _), for_range]
      simp [end_eq, occupied_from]
    | succ n ih =>
      intro p acc hp hn
      have hlt : p < s.slots_pool.length := by omega
      rw [List.drop_eq_getElem_cons hlt]
      cases hv : s.slots_pool[p] with
      | none =>
        have hq : s.slots_pool[p]? = some none := by
          rw [List.getElem?_eq_getElem hlt, hv]
        rw [Iterator.new_of_vacant hq, ih (p + 1) acc (by omega) (by omega)]
        simp [occupied_from]
      | some v =>
        have hq : s.slots_pool[p]? = some (some v) := by
          rw [List.getElem?_eq_getElem hlt, hv]
        rw [Iterator.new_of_occupied hq, for_range]
        have hne : p ≠ end_ s := by rw [end_eq]; omega
        simp only [hne, if_false, hlt, dite_true, hderef p v hq, occupied_from,
          List.map_cons, List.foldlM_cons]
        cases hb : body acc (f p v) with
        | none => simp
        | some acc' =>
          simp only [Option.bind_eq_bind, Option.some_bind]
          rw [Iterator.next_eq_new, ih (p + 1) acc' (by omega) (by omega)]
  exact key _ p acc hp rfl

theorem foldlM_snoc {α : Type} (g : α → α) (l acc : List α) :
    List.foldlM (fun (a : List α) x => some (a ++ [g x])) acc l = some (acc ++ l.map g) := by
  induction l generalizing acc with
  | nil => simp
  | cons x l ih => simp [ih]

theorem occupied_from_map_snd (l : List (Option T)) (p : Nat) :
    (occupied_from l p).map Prod.snd = l.filterMap id := by
  induction l generalizing p with
  | nil => simp [occupied_from]
  | cons o l ih =>
    cases o with
    | none => simp [occupied_from, ih]
    | some v => simp [occupied_from, ih]

theorem occupied_from_length (l : List (Option T)) (p : Nat) :
    (occupied_from l p).length = l.countP Option.isSome := by
  induction l generalizing p with
  | nil => simp [occupied_from]
  | cons o l ih =>
    cases o with
    | none => simp [occupied_from, ih]
    | some v => simp [occupied_from, ih]

theorem mem_occupied_from (l : List (Option T)) (p k : Nat) (v : T) :
    (k, v) ∈ occupied_from l p ↔ p ≤ k ∧ l[k - p]? = some (some v) := by
  induction l generalizing p with
  | nil => simp [occupied_from]
  | cons o l ih =>
    have hrec : (k, v) ∈ occupied_from l (p + 1) ↔ p < k ∧ (o :: l)[k - p]? = some (some v) := by
      rw [ih (p + 1)]
      constructor
      · rintro ⟨hle, hget⟩
        refine ⟨hle, ?_⟩
        have : k - p = (k - (p + 1)) + 1 := by omega
        rw [this, List.getElem?_cons_succ]
        exact hget
      · rintro ⟨hlt, hget⟩
        refine ⟨hlt, ?_⟩
        have : k - p = (k - (p + 1)) + 1 := by omega
        rw [this, List.getElem?_cons_succ] at hget
        exact hget
    cases o with
    | none =>
      simp only [occupied_from]
      rw [hrec]
      constructor
      · rintro ⟨hlt, hget⟩
        exact ⟨Nat.le_of_lt hlt, hget⟩
      · rintro ⟨hle, hget⟩
        refine ⟨?_, hget⟩
        rcases Nat.lt_or_eq_of_le hle with hlt | rfl
        · exact hlt
        · simp at hget
    | some w =>
      simp only [occupied_from, List.mem_cons, Prod.mk.injEq]
      rw [hrec]
      constructor
      · rintro (⟨rfl, rfl⟩ | ⟨hlt, hget⟩)
        · simp
        · exact ⟨Nat.le_of_lt hlt, hget⟩
      · rintro ⟨hle, hget⟩
        rcases Nat.lt_or_eq_of_le hle with hlt | rfl
        · exact Or.inr ⟨hlt, hget⟩
        · simp at hget
          exact Or.inl ⟨rfl, hget.symm⟩

theorem occupied_from_keys_ge (l : List (Option T)) (p : Nat) :
    ∀ kv ∈ occupied_from l p, p ≤ kv.1 := by
  intro kv hkv
  exact ((mem_occupied_from l p kv.1 kv.2).mp hkv).1

theorem occupied_from_sorted (l : List (Option T)) (p : Nat) :
    ((occupied_from l p).map Prod.fst).Pairwise (· < ·) := by
  induction l generalizing p with
  | nil => simp [occupied_from]
  | cons o l ih =>
    cases o with
    | none => simpa [occupied_from] using ih (p + 1)
    | some v =>
      simp only [occupied_from, List.map_cons, List.pairwise_cons]
      refine ⟨?_, ih (p + 1)⟩
      intro k hk
      obtain ⟨kv, hkv, rfl⟩ := List.mem_map.mp hk
      have := occupied_from_keys_ge l (p + 1) kv hkv
      omega

theorem key_val_list_eq (s : Slab T) :
    key_val_list s = some (occupied_from s.slots_pool 0) := by
  unfold key_val_list key_val_begin
  rw [for_range_new s KeyValIterator.deref (fun k v => (k, v)) ?_ _ 0 [] (Nat.zero_le _)]
  · simpa using foldlM_snoc (fun kv : Nat × T => kv) (occupied_from s.slots_pool 0) []
  · intro pos v h
    have hlt : pos < s.slots_pool.length := by
      by_contra hge
      rw [List.getElem?_eq_none (Nat.le_of_not_lt hge)] at h
      simp at h
    rw [List.getElem?_eq_getElem hlt] at h
    simp only [Option.some.injEq] at h
    simp [KeyValIterator.deref, hlt, h]

theorem to_list_eq_map_snd (s : Slab T) :
    to_list s = some ((occupied_from s.slots_pool 0).map Prod.snd) := by
  unfold to_list begin
  rw [for_range_new s Iterator.deref (fun _ v => v) ?_ _ 0 [] (Nat.zero_le _)]
  · simpa using foldlM_snoc (fun v : T => v) ((occupied_from s.slots_pool 0).map Prod.snd) []
  · intro pos v h
    have hlt : pos < s.slots_pool.length := by
      by_contra hge
      rw [List.getElem?_eq_none (Nat.le_of_not_lt hge)] at h
      simp at h
    rw [List.getElem?_eq_getElem hlt] at h
    simp only [Option.some.injEq] at h
    simp [Iterator.deref, hlt, h]

theorem to_list_eq (s : Slab T) : to_list s = some (s.slots_pool.filterMap id) := by
  rw [to_list_eq_map_snd, occupied_from_map_snd]

/-! ## Counting the occupied slots -/

theorem countP_set_some {l : List (Option T)} {k : Nat} (v : T) (h : l[k]? = some none) :
    (l.set k (some v)).countP Option.isSome = l.countP Option.isSome + 1 := by
  have hlt : k < l.length := by
    by_contra hge
    rw [List.getElem?_eq_none (Nat.le_of_not_lt hge)] at h
    simp at h
  rw [List.getElem?_eq_getElem hlt] at h
  simp only [Option.some.injEq] at h
  rw [List.countP_set _ _ _ _ hlt, h]
  simp

theorem countP_set_none {l : List (Option T)} {k : Nat} {v : T} (h : l[k]? = some (some v)) :
    (l.set k none).countP Option.isSome + 1 = l.countP Option.isSome := by
  have hlt : k < l.length := by
    by_contra hge
    rw [List.getElem?_eq_none (Nat.le_of_not_lt hge)] at h
    simp at h
  rw [List.getElem?_eq_getElem hlt] at h
  simp only [Option.some.injEq] at h
  have hle := List.boole_getElem_le_countP Option.isSome l k hlt
  rw [h] at hle
  simp only [Option.isSome_some, if_true] at hle
  rw [List.countP_set _ _ _ _ hlt, h]
  simp only [Option.isSome_some, if_true, Option.isSome_none]
  simp only [Bool.false_eq_true, if_false]
  omega

theorem remove_count (s : Slab T) (key : Nat) :
    (remove s key).2.stack_of_removed.length +
        (remove s key).2.slots_pool.countP Option.isSome =
      s.stack_of_removed.length + s.slots_pool.countP Option.isSome ∧
    (remove s key).2.slots_pool.length = s.slots_pool.length := by
  cases hc : contains s key with
  | false => rw [remove_of_not_contains hc]; exact ⟨rfl, rfl⟩
  | true =>
    obtain ⟨v, hv⟩ := (contains_eq_true_iff s key).mp hc
    rw [remove_of_contains hc]
    have := countP_set_none hv
    refine ⟨?_, by simp⟩
    show (s.stack_of_removed ++ [key]).length +
        (s.slots_pool.set key none).countP Option.isSome =
      s.stack_of_removed.length + s.slots_pool.countP Option.isSome
    simp only [List.length_append, List.length_singleton]
    omega

theorem reachable_count {s : Slab T} (h : Reachable s) :
    s.stack_of_removed.length + s.slots_pool.countP Option.isSome = s.slots_pool.length := by
  induction h with
  | default => simp [new]
  | capacity c => simp [with_capacity]
  | batch hb =>
    obtain ⟨rfl, -⟩ := from_init_eq hb
    simp
  | @insert s0 s1 obj key hr hi ih =>
    rcases (reachable_inv hr).insert_cases hi with ⟨hnil, -, -, rfl⟩ | ⟨st, hst, -, hvac, rfl⟩
    · rw [hnil] at ih
      show ([] : List Nat).length + (_ ++ [some _]).countP Option.isSome = (_ ++ [some _]).length
      simp only [List.length_nil, List.countP_append, List.length_append, List.countP_cons,
        List.countP_nil, Option.isSome_some, if_true, List.length_singleton] at ih ⊢
      omega
    · rw [hst] at ih
      have := countP_set_some obj hvac
      show st.length + (s0.slots_pool.set key (some obj)).countP Option.isSome =
        (s0.slots_pool.set key (some obj)).length
      simp only [List.length_append, List.length_singleton, List.length_set] at ih ⊢
      omega
  | @remove s0 key _ ih =>
    obtain ⟨h1, h2⟩ := remove_count s0 key
    omega
  | @take s0 key _ ih =>
    rw [take_snd_eq_remove_snd]
    obtain ⟨h1, h2⟩ := remove_count s0 key
    omega

theorem reachable_size {s : Slab T} (h : Reachable s) :
    size s = s.slots_pool.countP Option.isSome := by
  have hc := reachable_count h
  rw [(reachable_inv h).size_eq]
  omega

theorem size_eq_zero_iff {s : Slab T} (h : Reachable s) :
    size s = 0 ↔ ∀ i, contains s i = false := by
  rw [reachable_size h, List.countP_eq_zero]
  constructor
  · intro hall i
    cases hc : contains s i with
    | false => rfl
    | true =>
      obtain ⟨v, hv⟩ := (contains_eq_true_iff s i).mp hc
      have hmem : some v ∈ s.slots_pool := List.getElem?_mem hv
      exact absurd rfl (hall _ hmem)
  · intro hall o ho
    cases o with
    | none => simp
    | some v =>
      obtain ⟨i, hlt, hi⟩ := List.getElem_of_mem ho
      have hc : contains s i = true :=
        (contains_eq_true_iff s i).mpr ⟨v, by rw [List.getElem?_eq_getElem hlt, hi]⟩
      rw [hall i] at hc
      exact absurd hc Bool.false_ne_true

/-! ## Auxiliary facts about sequences of calls -/

theorem remove_fst_eq_contains (s : Slab T) (key : Nat) :
    (remove s key).1 = contains s key := by
  cases hc : contains s key with
  | false => rw [remove_of_not_contains hc]
  | true => rw [remove_of_contains hc]

theorem take_fst_isSome_eq_contains (s : Slab T) (key : Nat) :
    (take s key).1.isSome = contains s key := by
  cases hc : contains s key with
  | false => rw [take_of_not_contains hc]; rfl
  | true =>
    obtain ⟨v, hv⟩ := (contains_eq_true_iff s key).mp hc
    have hg : get s key = some v := by rw [get_eq_join, hv]; rfl
    rw [take_of_contains hc, hg]; rfl

theorem remove_size_flag {s : Slab T} (hs : Reachable s) (key : Nat) :
    size (remove s key).2 + (if contains s key then 1 else 0) = size s ∧
    (remove s key).2.slots_pool.length = s.slots_pool.length := by
  cases hc : contains s key with
  | false => rw [remove_of_not_contains hc]; simp
  | true =>
    have h1 := (reachable_inv hs).remove_size hc
    have h2 := (remove_count s key).2
    simp only [if_true]
    exact ⟨h1, h2⟩

theorem step_spec {st st' : Slab T × Nat × Nat} {op : Op T} (hs : Reachable st.1)
    (h : step st op = some st') :
    Reachable st'.1 ∧
    size st'.1 + st'.2.2 + st.2.1 = size st.1 + st.2.2 + st'.2.1 ∧
    st'.1.slots_pool.length ≤ st.1.slots_pool.length + 1 := by
  cases op with
  | insert obj =>
    unfold step at h
    cases hi : insert st.1 obj with
    | none => simp [hi] at h
    | some r =>
      obtain ⟨k, s1⟩ := r
      simp only [hi, Option.some.injEq] at h
      subst h
      have hsz := (reachable_inv hs).insert_size hi
      refine ⟨Reachable.insert hs hi, by simp only; omega, ?_⟩
      rcases (reachable_inv hs).insert_cases hi with ⟨-, -, -, rfl⟩ | ⟨_, -, -, -, rfl⟩
      · simp
      · simp
  | remove key =>
    unfold step at h
    simp only [Option.some.injEq] at h
    subst h
    obtain ⟨h1, h2⟩ := remove_size_flag hs key
    rw [remove_fst_eq_contains]
    refine ⟨Reachable.remove key hs, by simp only; omega, by simp only; omega⟩
  | take key =>
    unfold step at h
    simp only [Option.some.injEq] at h
    subst h
    obtain ⟨h1, h2⟩ := remove_size_flag hs key
    rw [take_fst_isSome_eq_contains, take_snd_eq_remove_snd]
    refine ⟨?_, by simp only; omega, by simp only; omega⟩
    have := Reachable.take key hs
    rwa [take_snd_eq_remove_snd] at this

theorem step_isSome {st : Slab T × Nat × Nat} (op : Op T) (hs : Reachable st.1)
    (hroom : st.1.slots_pool.length < SIZE_MAX) : (step st op).isSome = true := by
  cases op with
  | insert obj =>
    have := (reachable_inv hs).insert_isSome obj (fun _ => hroom)
    cases hi : insert st.1 obj with
    | none => rw [hi] at this; exact absurd this (by simp)
    | some r => simp only [step, hi]; rfl
  | remove key => rfl
  | take key => rfl

theorem foldlM_step_spec (ops : List (Op T)) :
    ∀ st st' : Slab T × Nat × Nat, Reachable st.1 → List.foldlM step st ops = some st' →
      Reachable st'.1 ∧ size st'.1 + st'.2.2 + st.2.1 = size st.1 + st.2.2 + st'.2.1 := by
  induction ops with
  | nil =>
    intro st st' hs h
    simp only [List.foldlM_nil, Option.pure_def, Option.some.injEq] at h
    subst h
    exact ⟨hs, rfl⟩
  | cons op ops ih =>
    intro st st' hs h
    rw [List.foldlM_cons] at h
    cases h1 : step st op with
    | none => simp [h1] at h
    | some st1 =>
      simp only [h1, Option.bind_eq_bind, Option.some_bind] at h
      obtain ⟨hr1, hc1, -⟩ := step_spec hs h1
      obtain ⟨hr2, hc2⟩ := ih st1 st' hr1 h
      exact ⟨hr2, by omega⟩

theorem foldlM_step_isSome (ops : List (Op T)) :
    ∀ st : Slab T × Nat × Nat, Reachable st.1 →
      st.1.slots_pool.length + ops.length ≤ SIZE_MAX →
      (List.foldlM step st ops).isSome = true := by
  induction ops with
  | nil => intro st _ _; rfl
  | cons op ops ih =>
    intro st hs hroom
    simp only [List.length_cons] at hroom
    rw [List.foldlM_cons]
    have h0 := step_isSome op hs (by omega)
    cases h1 : step st op with
    | none => rw [h1] at h0; exact absurd h0 (by simp)
    | some st1 =>
      simp only [Option.bind_eq_bind, Option.some_bind]
      obtain ⟨hr1, -, hlen⟩ := step_spec hs h1
      exact ih st1 hr1 (by omega)

theorem empty_eq_true_iff (s : Slab T) : empty s = true ↔ size s = 0 := by
  simp [empty]

theorem vacate_step (s : Slab T) (bk : Bool × Nat) :
    (if bk.1 then (take s bk.2).2 else (remove s bk.2).2) = (remove s bk.2).2 := by
  cases bk.1 with
  | false => rfl
  | true => exact take_snd_eq_remove_snd s bk.2

theorem vacate_all_spec (keys : List (Bool × Nat)) :
    ∀ s : Slab T, Reachable s → (keys.map Prod.snd).Nodup →
      (∀ k ∈ keys.map Prod.snd, contains s k = true) →
      Reachable (vacate_all s keys) ∧
      (vacate_all s keys).stack_of_removed = s.stack_of_removed ++ keys.map Prod.snd := by
  induction keys with
  | nil => intro s hs _ _; exact ⟨hs, by simp [vacate_all]⟩
  | cons bk keys ih =>
    intro s hs hnd hocc
    simp only [List.map_cons, List.nodup_cons] at hnd
    have hk : contains s bk.2 = true := hocc bk.2 (by simp)
    have hstep : vacate_all s (bk :: keys) = vacate_all (remove s bk.2).2 keys := by
      simp only [vacate_all, List.foldl_cons, vacate_step]
    have hocc' : ∀ k ∈ keys.map Prod.snd, contains (remove s bk.2).2 k = true := by
      intro k hkmem
      have hne : k ≠ bk.2 := by
        rintro rfl
        exact hnd.1 hkmem
      rw [contains_congr (remove_slot_ne s hne)]
      exact hocc k (by simp only [List.map_cons, List.mem_cons]; exact Or.inr hkmem)
    obtain ⟨hr, hst⟩ := ih (remove s bk.2).2 (Reachable.remove bk.2 hs) hnd.2 hocc'
    rw [hstep]
    refine ⟨hr, ?_⟩
    rw [hst, remove_of_contains hk]
    simp

theorem insert_all_spec (vals : List T) :
    ∀ (ks : List Nat) (s : Slab T) (base : List Nat), Inv s →
      s.stack_of_removed = base ++ ks → vals.length = ks.length →
      ∃ s2, insert_all s vals = some (ks.reverse, s2) ∧ s2.stack_of_removed = base := by
  induction vals with
  | nil =>
    intro ks s base _ hst hlen
    have hks : ks = [] := List.length_eq_zero.mp hlen.symm
    subst hks
    exact ⟨s, by simp [insert_all], by simpa using hst⟩
  | cons v vals ih =>
    intro ks s base hs hst hlen
    rcases List.eq_nil_or_concat' ks with rfl | ⟨ks', k, rfl⟩
    · simp at hlen
    · have hst' : s.stack_of_removed = (base ++ ks') ++ [k] := by
        rw [hst, List.append_assoc]
      have hk : k < s.slots_pool.length := hs.mem_lt (by rw [hst']; simp)
      have hins := insert_of_concat v hst' hk
      have hs' := inv_insert hs hins
      have hlen' : vals.length = ks'.length := by
        simp only [List.length_cons, List.length_append, List.length_nil] at hlen
        omega
      obtain ⟨s2, h2, hb⟩ := ih ks' _ base hs' rfl hlen'
      refine ⟨s2, ?_, hb⟩
      simp only [insert_all, hins, h2, List.reverse_append, List.reverse_singleton,
        List.singleton_append]

theorem slot_eq_some_iff (s : Slab T) (k : Nat) (v : T) :
    s.slots_pool[k]? = some (some v) ↔ contains s k = true ∧ get s k = some v := by
  constructor
  · intro h
    exact ⟨(contains_eq_true_iff s k).mpr ⟨v, h⟩, by rw [get_eq_join, h]; rfl⟩
  · rintro ⟨-, hg⟩
    rw [get_eq_join] at hg
    cases hq : s.slots_pool[k]? with
    | none => rw [hq] at hg; simp at hg
    | some o =>
      rw [hq] at hg
      have ho : o = some v := hg
      rw [ho]

theorem Iterator.new_spec (s : Slab T) (p : Nat) (hp : p ≤ s.slots_pool.length) :
    p ≤ Iterator.new s p ∧ Iterator.new s p ≤ s.slots_pool.length ∧
    (∀ j, p ≤ j → j < Iterator.new s p → s.slots_pool[j]? = some none) ∧
    (Iterator.new s p < s.slots_pool.length → contains s (Iterator.new s p) = true) := by
  have key : ∀ n p, p ≤ s.slots_pool.length → s.slots_pool.length - p = n →
      p ≤ Iterator.new s p ∧ Iterator.new s p ≤ s.slots_pool.length ∧
      (∀ j, p ≤ j → j < Iterator.new s p → s.slots_pool[j]? = some none) ∧
      (Iterator.new s p < s.slots_pool.length → contains s (Iterator.new s p) = true) := by
    intro n
    induction n with
    | zero =>
      intro p hp hn
      rw [Iterator.new_of_ge (by omega)]
      exact ⟨Nat.le_refl _, hp, fun j h1 h2 => by omega, fun h => by omega⟩
    | succ n ih =>
      intro p hp hn
      have hlt : p < s.slots_pool.length := by omega
      cases hv : s.slots_pool[p] with
      | none =>
        have hq : s.slots_pool[p]? = some none := by
          rw [List.getElem?_eq_getElem hlt, hv]
        rw [Iterator.new_of_vacant hq]
        obtain ⟨h1, h2, h3, h4⟩ := ih (p + 1) (by omega) (by omega)
        refine ⟨by omega, h2, ?_, h4⟩
        intro j hj1 hj2
        rcases Nat.eq_or_lt_of_le hj1 with rfl | hlt'
        · exact hq
        · exact h3 j hlt' hj2
      | some v =>
        have hq : s.slots_pool[p]? = some (some v) := by
          rw [List.getElem?_eq_getElem hlt, hv]
        rw [Iterator.new_of_occupied hq]
        exact ⟨Nat.le_refl _, hp, fun j h1 h2 => by omega,
          fun _ => (contains_eq_true_iff s p).mpr ⟨v, hq⟩⟩
  exact key _ p hp rfl

theorem begin_eq_end_iff (s : Slab T) : begin s = end_ s ↔ ∀ i, contains s i = false := by
  obtain ⟨-, h2, h3, h4⟩ := Iterator.new_spec s 0 (Nat.zero_le _)
  rw [end_eq]
  unfold begin
  constructor
  · intro he i
    rw [contains_eq_false_iff]
    by_cases hi : i < s.slots_pool.length
    · exact Or.inr (h3 i (Nat.zero_le _) (by omega))
    · exact Or.inl (by omega)
  · intro hall
    by_contra hne
    have hlt : Iterator.new s 0 < s.slots_pool.length := by omega
    have := h4 hlt
    rw [hall] at this
    exact absurd this Bool.false_ne_true

theorem from_init_of_le {init : List T} (h : init.length ≤ SIZE_MAX) :
    from_init init = some ⟨init.map some, []⟩ := by
  unfold from_init
  simp [h, from_init_loop]

theorem filterMap_id_map_some (l : List T) : (l.map some).filterMap id = l := by
  induction l with
  | nil => rfl
  | cons a l ih => simp [ih]

theorem Iterator.valid_le {s : Slab T} {pos : Nat} (h : Iterator.valid s pos) :
    pos ≤ s.slots_pool.length := by
  rcases h with hc | rfl
  · exact Nat.le_of_lt (contains_lt hc)
  · exact Nat.le_refl _

theorem Iterator.valid_new (s : Slab T) (p : Nat) (hp : p ≤ s.slots_pool.length) :
    Iterator.valid s (Iterator.new s p) := by
  obtain ⟨-, h2, -, h4⟩ := Iterator.new_spec s p hp
  rcases Nat.lt_or_eq_of_le h2 with hlt | heq
  · exact Or.inl (h4 hlt)
  · exact Or.inr heq

theorem Iterator.valid_next {s : Slab T} {pos : Nat} (h : Iterator.valid s pos)
    (hne : pos ≠ end_ s) : Iterator.valid s (Iterator.next s pos) := by
  rw [end_eq] at hne
  have hle := Iterator.valid_le h
  rw [Iterator.next_eq_new]
  exact Iterator.valid_new s (pos + 1) (by omega)

theorem Iterator.prev_spec (s : Slab T) :
    ∀ pos, pos ≤ s.slots_pool.length → (∃ j, j < pos ∧ contains s j = true) →
      ∃ q, Iterator.prev s pos = some q ∧ contains s q = true ∧ q < pos ∧
        ∀ j, q < j → j < pos → contains s j = false := by
  intro pos
  induction pos with
  | zero =>
    rintro - ⟨j, hj, -⟩
    omega
  | succ pos ih =>
    rintro hle ⟨j, hj, hcj⟩
    have hlt : pos < s.slots_pool.length := by omega
    by_cases hpos : pos > 0
    · cases hv : s.slots_pool[pos] with
      | none =>
        have hvac : contains s pos = false :=
          (contains_eq_false_iff s pos).mpr
            (Or.inr (by rw [List.getElem?_eq_getElem hlt, hv]))
        have hjne : j ≠ pos := by
          rintro rfl
          rw [hvac] at hcj
          exact Bool.false_ne_true hcj
        obtain ⟨q, hq, hcq, hqlt, hbetween⟩ := ih (by omega) ⟨j, by omega, hcj⟩
        refine ⟨q, ?_, hcq, by omega, ?_⟩
        · simp only [Iterator.prev, hpos, if_true, hlt, dite_true, hv, Option.isNone_none]
          exact hq
        · intro i hi1 hi2
          rcases Nat.lt_or_eq_of_le (Nat.lt_succ_iff.mp hi2) with hlt' | rfl
          · exact hbetween i hi1 hlt'
          · exact hvac
      | some v =>
        refine ⟨pos, ?_, ?_, Nat.lt_succ_self _, fun i h1 h2 => by omega⟩
        · simp [Iterator.prev, hpos, hlt, hv]
        · exact (contains_eq_true_iff s pos).mpr
            ⟨v, by rw [List.getElem?_eq_getElem hlt, hv]⟩
    · have hz : pos = 0 := by omega
      subst hz
      have hj0 : j = 0 := by omega
      subst hj0
      exact ⟨0, by simp [Iterator.prev], hcj, Nat.lt_succ_self _, fun i h1 h2 => by omega⟩

theorem begin_ex_pool : begin ex_pool = 1 := by
  unfold begin
  rw [Iterator.new_of_vacant (by decide : ex_pool.slots_pool[0]? = some none)]
  exact Iterator.new_of_occupied (by decide : ex_pool.slots_pool[0 + 1]? = some (some 20))

/-! ## Auxiliary facts about `out` -/

theorem out_eq_foldlM (s : Slab T) (render : T → List Char) (stream : List Char)
    (separator : Char) :
    out s render stream separator =
      (List.foldlM (out_body s render separator) (stream, 0)
        (s.slots_pool.filterMap id)).map Prod.fst := by
  unfold out begin
  rw [for_range_new s Iterator.deref (fun _ v => v) ?_ _ 0 _ (Nat.zero_le _)]
  · rw [List.drop_zero, ← occupied_from_map_snd s.slots_pool 0]
  · intro pos v h
    have hlt : pos < s.slots_pool.length := by
      by_contra hge
      rw [List.getElem?_eq_none (Nat.le_of_not_lt hge)] at h
      simp at h
    rw [List.getElem?_eq_getElem hlt] at h
    simp only [Option.some.injEq] at h
    simp [Iterator.deref, hlt, h]

theorem intercalate_cons_cons {α : Type} (sep x y : List α) (l : List (List α)) :
    sep.intercalate (x :: y :: l) = x ++ sep ++ sep.intercalate (y :: l) := by
  simp [List.intercalate, List.intersperse]

theorem foldlM_out_body (s : Slab T) (render : T → List Char) (separator : Char) (n : Nat)
    (hn : n ≤ INT_MAX) (hN : 0 < n → size_t_sub (size s) 1 = n - 1) :
    ∀ (vs : List T) (stream : List Char) (i : Nat), i + vs.length = n →
      List.foldlM (out_body s render separator) (stream, i) vs =
        some (stream ++ [separator].intercalate (vs.map render), n) := by
  intro vs
  induction vs with
  | nil =>
    intro stream i hi
    simp only [List.length_nil, Nat.add_zero] at hi
    subst hi
    simp [List.intercalate]
  | cons v vs ih =>
    intro stream i hi
    simp only [List.length_cons] at hi
    have hpos : 0 < n := by omega
    have hlt : i < INT_MAX := by omega
    rw [List.foldlM_cons]
    cases vs with
    | nil =>
      simp only [List.length_nil] at hi
      have hnot : ¬ i < size_t_sub (size s) 1 := by rw [hN hpos]; omega
      have hi1 : i + 1 = n := by omega
      simp [out_body, hnot, hlt, hi1, List.intercalate]
    | cons w ws =>
      simp only [List.length_cons] at hi
      have hsep : i < size_t_sub (size s) 1 := by rw [hN hpos]; omega
      have hstep : out_body s render separator (stream, i) v =
          some (stream ++ render v ++ [separator], i + 1) := by
        simp [out_body, hsep, hlt]
      rw [hstep]
      simp only [Option.bind_eq_bind, Option.some_bind]
      rw [ih (stream ++ render v ++ [separator]) (i + 1)
        (by simp only [List.length_cons]; omega)]
      simp only [List.map_cons, intercalate_cons_cons, List.append_assoc]

theorem foldlM_out_body_overflow (s : Slab T) (render : T → List Char) (separator : Char) :
    ∀ (vs : List T) (stream : List Char) (i : Nat), i ≤ INT_MAX →
      INT_MAX < i + vs.length →
      List.foldlM (out_body s render separator) (stream, i) vs = none := by
  intro vs
  induction vs with
  | nil =>
    intro stream i h1 h2
    simp only [List.length_nil, Nat.add_zero] at h2
    omega
  | cons v vs ih =>
    intro stream i h1 h2
    simp only [List.length_cons] at h2
    rw [List.foldlM_cons]
    by_cases hlt : i < INT_MAX
    · have hstep : ∃ st', out_body s render separator (stream, i) v = some (st', i + 1) := by
        simp [out_body, hlt]
      obtain ⟨st', hst'⟩ := hstep
      rw [hst']
      simp only [Option.bind_eq_bind, Option.some_bind]
      exact ih st' (i + 1) (by omega) (by omega)
    · have hstep : out_body s render separator (stream, i) v = none := by
        simp [out_body, hlt]
      rw [hstep]
      rfl

theorem filterMap_id_length (l : List (Option T)) :
    (l.filterMap id).length = l.countP Option.isSome := by
  rw [← occupied_from_map_snd l 0, List.length_map, occupied_from_length]

/-- The rendering `out` produces on a reachable pool whose number of values fits
the counter `int i`: the renderings of the occupied values in traversal order,
separated by the separator. -/
theorem out_of_size_le_INT_MAX {s : Slab T} (hs : Reachable s) (hsize : size s ≤ INT_MAX)
    (render : T → List Char) (stream : List Char) (separator : Char) :
    out s render stream separator =
      some (stream ++ [separator].intercalate ((s.slots_pool.filterMap id).map render)) := by
  have hcount : (s.slots_pool.filterMap id).length = size s := by
    rw [filterMap_id_length, reachable_size hs]
  have hN : 0 < size s → size_t_sub (size s) 1 = size s - 1 := by
    intro hpos
    unfold INT_MAX at hsize
    unfold size_t_sub SIZE_MOD
    omega
  rw [out_eq_foldlM,
    foldlM_out_body s render separator (size s) hsize hN _ stream 0 (by omega)]
  rfl

theorem out_of_INT_MAX_lt (s : Slab T) (hsize : INT_MAX < (s.slots_pool.filterMap id).length)
    (render : T → List Char) (stream : List Char) (separator : Char) :
    out s render stream separator = none := by
  rw [out_eq_foldlM,
    foldlM_out_body_overflow s render separator _ stream 0 (Nat.zero_le _) (by omega)]
  rfl

theorem big_pool_reachable : Reachable big_pool := by
  have hlen : (List.replicate 2147483650 (0 : Nat)).length ≤ SIZE_MAX := by
    rw [List.length_replicate]
    simp [SIZE_MAX]
  have h := from_init_of_le hlen
  rw [List.map_replicate] at h
  exact Reachable.batch h

/-! ## Verified properties, continued -/

/-- C11 (round-trip take).  For every reachable pool and every value `v`:
`insert(v)` returns (given room to grow when it must), and `take` of the returned
key right afterwards returns a present value equal to `v`, after which
`contains(key)` is false and `size()` is what it was before the insert. -/
theorem insert_take_round_trip (s : Slab T) (v : T) (hs : Reachable s) :
    ((s.stack_of_removed = [] → s.slots_pool.length < SIZE_MAX) →
      (insert s v).isSome = true) ∧
    (∀ k s', insert s v = some (k, s') →
      (take s' k).1 = some v ∧ contains (take s' k).2 k = false ∧
        size (take s' k).2 = size s) := by
  have hi := reachable_inv hs
  refine ⟨hi.insert_isSome v, ?_⟩
  intro k s' h
  have hi' := inv_insert hi h
  have hslot := hi.insert_slot h
  have hc : contains s' k = true := (contains_eq_true_iff s' k).mpr ⟨v, hslot⟩
  have hg : get s' k = some v := by rw [get_eq_join, hslot]; rfl
  refine ⟨by rw [take_of_contains hc, hg], ?_, ?_⟩
  · rw [take_snd_eq_remove_snd]
    exact (contains_eq_false_iff _ k).mpr (Or.inr (remove_slot_self hc))
  · rw [take_snd_eq_remove_snd]
    have h1 := hi'.remove_size hc
    have h2 := hi.insert_size h
    omega

/-- Instance of the round trip: inserting 40 into the example pool and taking it back. -/
theorem insert_take_round_trip_witness :
    Reachable ex_pool ∧
    ((ex_pool.stack_of_removed = [] → ex_pool.slots_pool.length < SIZE_MAX) →
      (insert ex_pool 40).isSome = true) ∧
    (∀ k s', insert ex_pool 40 = some (k, s') →
      (take s' k).1 = some 40 ∧ contains (take s' k).2 k = false ∧
        size (take s' k).2 = size ex_pool) :=
  ⟨ex_pool_reachable, insert_take_round_trip ex_pool 40 ex_pool_reachable⟩

/-- C12 (out-of-range safety).  `contains(key)` is true iff `key` is below the slot
count and the slot at `key` is occupied; for every pool and every key at or beyond
the slot count, `contains` returns false, `remove` returns false and `take` returns
the empty optional, with the pool unchanged.  The three members read a slot only
after the range test, which the embedding reflects by indexing with a proof that
the key is in range. -/
theorem out_of_range_safety (s : Slab T) (key : Nat) :
    (contains s key = true ↔
      key < s.slots_pool.length ∧ ∃ v, s.slots_pool[key]? = some (some v)) ∧
    (s.slots_pool.length ≤ key →
      contains s key = false ∧ remove s key = (false, s) ∧ take s key = (none, s)) := by
  constructor
  · constructor
    · intro hc
      exact ⟨contains_lt hc, (contains_eq_true_iff s key).mp hc⟩
    · rintro ⟨-, hv⟩
      exact (contains_eq_true_iff s key).mpr hv
  · intro hge
    have hc : contains s key = false := (contains_eq_false_iff s key).mpr (Or.inl hge)
    exact ⟨hc, remove_of_not_contains hc, take_of_not_contains hc⟩

/-- C13 (size invariant).  For every finite sequence of `insert`, `remove` and
`take` calls applied to an empty pool, and every prefix of it: the sequence runs
to its end when the slot vector has room for its inserts, and after the prefix
`size()` equals the number of inserts so far minus the number of removes that
returned true and takes that returned a value so far, `empty()` being true iff
that number is 0. -/
theorem size_invariant (s0 : Slab T) (hs : Reachable s0) (he : empty s0 = true)
    (pre suf : List (Op T)) :
    (s0.slots_pool.length + (pre ++ suf).length ≤ SIZE_MAX →
      (run s0 (pre ++ suf)).isSome = true) ∧
    ((run s0 (pre ++ suf)).isSome = true →
      ∃ s n r, run s0 pre = some (s, n, r) ∧ r ≤ n ∧ size s = n - r ∧
        (empty s = true ↔ n - r = 0)) := by
  constructor
  · intro hroom
    exact foldlM_step_isSome (pre ++ suf) (s0, 0, 0) hs hroom
  · intro hsome
    unfold run at hsome ⊢
    rw [List.foldlM_append] at hsome
    cases hpre : List.foldlM step (s0, 0, 0) pre with
    | none => rw [hpre] at hsome; exact absurd hsome (by simp)
    | some st =>
      obtain ⟨s, n, r⟩ := st
      obtain ⟨-, hc⟩ := foldlM_step_spec pre (s0, 0, 0) (s, n, r) hs hpre
      have h0 := (empty_eq_true_iff s0).mp he
      simp only at hc
      refine ⟨s, n, r, rfl, by omega, by omega, ?_⟩
      rw [empty_eq_true_iff]
      omega

/-- Instance of the size invariant: three calls on a new pool, observed after two. -/
theorem size_invariant_witness :
    Reachable (new : Slab Nat) ∧ empty (new : Slab Nat) = true ∧
    ((new : Slab Nat).slots_pool.length +
        ([Op.insert 1, Op.insert 2] ++ [Op.remove 0]).length ≤ SIZE_MAX →
      (run (new : Slab Nat) ([Op.insert 1, Op.insert 2] ++ [Op.remove 0])).isSome = true) ∧
    ((run (new : Slab Nat) ([Op.insert 1, Op.insert 2] ++ [Op.remove 0])).isSome = true →
      ∃ s n r, run (new : Slab Nat) [Op.insert 1, Op.insert 2] = some (s, n, r) ∧ r ≤ n ∧
        size s = n - r ∧ (empty s = true ↔ n - r = 0)) :=
  ⟨Reachable.default, by decide,
    size_invariant new Reachable.default (by decide) [Op.insert 1, Op.insert 2] [Op.remove 0]⟩

/-- C14 (LIFO key reuse).  For every reachable pool and every list of distinct
occupied keys `k1, ..., kn`: after vacating them in that order, each by `remove` or
by `take`, with no insert in between, the stack of removed keys is the old stack
followed by `k1, ..., kn`, `vacant_key()` returns `kn`, and the next `n` inserts
return `kn, ..., k1` in that order and leave the stack as it was before the
removals.  In particular with the stack `[a, b, c]` the next insert returns `c`
and leaves `[a, b]`. -/
theorem lifo_key_reuse (s : Slab T) (hs : Reachable s) (keys : List (Bool × Nat))
    (hnd : (keys.map Prod.snd).Nodup)
    (hocc : ∀ k ∈ keys.map Prod.snd, contains s k = true)
    (vals : List T) (hlen : vals.length = keys.length) :
    (vacate_all s keys).stack_of_removed = s.stack_of_removed ++ keys.map Prod.snd ∧
    (∀ ks kn, keys.map Prod.snd = ks ++ [kn] → vacant_key (vacate_all s keys) = kn) ∧
    (∃ s2, insert_all (vacate_all s keys) vals = some ((keys.map Prod.snd).reverse, s2) ∧
      s2.stack_of_removed = s.stack_of_removed) ∧
    (∀ (st : List Nat) (c : Nat) (v : T), s.stack_of_removed = st ++ [c] →
      vacant_key s = c ∧
      ∃ s', insert s v = some (c, s') ∧ s'.stack_of_removed = st) := by
  obtain ⟨hr, hst⟩ := vacate_all_spec keys s hs hnd hocc
  refine ⟨hst, ?_, ?_, ?_⟩
  · intro ks kn hks
    apply vacant_key_of_concat
    rw [hst, hks, ← List.append_assoc]
  · exact insert_all_spec vals (keys.map Prod.snd) (vacate_all s keys) s.stack_of_removed
      (reachable_inv hr) hst (by simpa using hlen)
  · intro st c v hsc
    have hc : c < s.slots_pool.length := (reachable_inv hs).mem_lt (by rw [hsc]; simp)
    exact ⟨vacant_key_of_concat hsc, _, insert_of_concat v hsc hc, rfl⟩

/-- Instance of the LIFO reuse: keys 1 and 2 of the example pool, vacated by
`remove` and by `take`, then two inserts. -/
theorem lifo_key_reuse_witness :
    Reachable ex_pool ∧
    (([(false, 1), (true, 2)] : List (Bool × Nat)).map Prod.snd).Nodup ∧
    (∀ k ∈ ([(false, 1), (true, 2)] : List (Bool × Nat)).map Prod.snd,
      contains ex_pool k = true) ∧
    ([7, 8] : List Nat).length = ([(false, 1), (true, 2)] : List (Bool × Nat)).length ∧
    ((vacate_all ex_pool [(false, 1), (true, 2)]).stack_of_removed =
      ex_pool.stack_of_removed ++ ([(false, 1), (true, 2)] : List (Bool × Nat)).map Prod.snd ∧
    (∀ ks kn, ([(false, 1), (true, 2)] : List (Bool × Nat)).map Prod.snd = ks ++ [kn] →
      vacant_key (vacate_all ex_pool [(false, 1), (true, 2)]) = kn) ∧
    (∃ s2, insert_all (vacate_all ex_pool [(false, 1), (true, 2)]) [7, 8] =
        some ((([(false, 1), (true, 2)] : List (Bool × Nat)).map Prod.snd).reverse, s2) ∧
      s2.stack_of_removed = ex_pool.stack_of_removed) ∧
    (∀ (st : List Nat) (c : Nat) (v : Nat), ex_pool.stack_of_removed = st ++ [c] →
      vacant_key ex_pool = c ∧
      ∃ s', insert ex_pool v = some (c, s') ∧ s'.stack_of_removed = st)) :=
  ⟨ex_pool_reachable, by decide, by decide, by decide,
    lifo_key_reuse ex_pool ex_pool_reachable [(false, 1), (true, 2)] (by decide) (by decide)
      [7, 8] (by decide)⟩

/-- C15 (traversal order matches occupancy).  For every pool, the forward traversal
from `begin()` to `end()` terminates and yields exactly the values of the occupied
slots, each once, in strictly increasing key order (the key-value traversal shows
the keys).  So a value inserted into a reused slot appears at that slot's position:
`insert(1)`, `insert(2)`, `insert(3)`, removing the key of `2`, then `insert(4)`
gives the traversal `[1, 4, 3]`. -/
theorem traversal_order (s : Slab T) :
    (∃ kv, key_val_list s = some kv ∧
      to_list s = some (kv.map Prod.snd) ∧
      (kv.map Prod.fst).Pairwise (· < ·) ∧
      (∀ k v, (k, v) ∈ kv ↔ contains s k = true ∧ get s k = some v)) ∧
    to_list s = some (s.slots_pool.filterMap id) ∧
    (∃ k1 s1 k2 s2 k3 s3 k4 s4,
      insert (new : Slab Nat) 1 = some (k1, s1) ∧ insert s1 2 = some (k2, s2) ∧
      insert s2 3 = some (k3, s3) ∧ (remove s3 k2).1 = true ∧
      insert (remove s3 k2).2 4 = some (k4, s4) ∧ k4 = k2 ∧
      to_list s4 = some [1, 4, 3]) := by
  refine ⟨⟨occupied_from s.slots_pool 0, key_val_list_eq s, to_list_eq_map_snd s,
    occupied_from_sorted s.slots_pool 0, ?_⟩, to_list_eq s, ?_⟩
  · intro k v
    rw [mem_occupied_from, ← slot_eq_some_iff]
    simp
  · refine ⟨0, ⟨[some 1], []⟩, 1, ⟨[some 1, some 2], []⟩, 2,
      ⟨[some 1, some 2, some 3], []⟩, 1, ⟨[some 1, some 4, some 3], []⟩,
      by decide, by decide, by decide, by decide, by decide, rfl, ?_⟩
    rw [to_list_eq]
    rfl

/-- C16 (empty-pool traversal).  For a freshly constructed empty pool (default or
with a capacity hint) `begin() == end()`; and for every pool reachable from a
constructor by `insert`, `remove` and `take`, `begin() == end()` holds iff
`empty()` is true, which includes a pool whose slots have all been vacated. -/
theorem begin_eq_end_iff_empty (s : Slab T) (hs : Reachable s) :
    begin (new : Slab T) = end_ (new : Slab T) ∧
    (∀ c, begin (with_capacity c : Slab T) = end_ (with_capacity c : Slab T)) ∧
    (begin s = end_ s ↔ empty s = true) := by
  refine ⟨?_, ?_, ?_⟩
  · rw [begin_eq_end_iff]
    intro i
    exact (contains_eq_false_iff _ i).mpr (Or.inl (by simp [new]))
  · intro c
    rw [begin_eq_end_iff]
    intro i
    exact (contains_eq_false_iff _ i).mpr (Or.inl (by simp [with_capacity]))
  · rw [begin_eq_end_iff, empty_eq_true_iff, size_eq_zero_iff hs]

/-- Instance of the empty-pool traversal: the example pool is not empty and its
`begin()` differs from its `end()`. -/
theorem begin_eq_end_iff_empty_witness :
    Reachable ex_pool ∧
    (begin (new : Slab Nat) = end_ (new : Slab Nat) ∧
    (∀ c, begin (with_capacity c : Slab Nat) = end_ (with_capacity c : Slab Nat)) ∧
    (begin ex_pool = end_ ex_pool ↔ empty ex_pool = true)) :=
  ⟨ex_pool_reachable, begin_eq_end_iff_empty ex_pool ex_pool_reachable⟩

/-- C17 (construction from an initial batch).  For every list of values
`[v0, ..., v(n-1)]` an initializer list can hold, the constructed pool has
`size() == n`, an empty stack of removed keys (`vacant_key() == n`), `contains(i)`
true and `get(i) == vi` for every `i < n`, `contains(i)` false for `i >= n`, and
its forward traversal yields the list in its original order. -/
theorem from_init_spec (init : List T) (h : init.length ≤ SIZE_MAX) :
    ∃ s, from_init init = some s ∧
      size s = init.length ∧
      s.stack_of_removed = [] ∧
      vacant_key s = init.length ∧
      (∀ i, i < init.length → contains s i = true ∧ get s i = init[i]?) ∧
      (∀ i, init.length ≤ i → contains s i = false) ∧
      to_list s = some init := by
  have hfrom := from_init_of_le h
  have hr : Reachable (⟨init.map some, []⟩ : Slab T) := Reachable.batch hfrom
  refine ⟨_, hfrom, ?_, rfl, ?_, ?_, ?_, ?_⟩
  · rw [(reachable_inv hr).size_eq]
    simp
  · rw [vacant_key_of_nil rfl]
    simp
  · intro i hi
    have hslot : (⟨init.map some, []⟩ : Slab T).slots_pool[i]? = some (some init[i]) := by
      show (init.map some)[i]? = some (some init[i])
      rw [List.getElem?_map, List.getElem?_eq_getElem hi]
      rfl
    refine ⟨(contains_eq_true_iff _ i).mpr ⟨_, hslot⟩, ?_⟩
    rw [get_eq_join, hslot, List.getElem?_eq_getElem hi]
    rfl
  · intro i hi
    exact (contains_eq_false_iff _ i).mpr (Or.inl (by simpa using hi))
  · rw [to_list_eq]
    show some ((init.map some).filterMap id) = some init
    rw [filterMap_id_map_some]

/-- Instance of the construction from a batch: the batch `[1, 2, 4, 8, 16]`. -/
theorem from_init_spec_witness :
    ([1, 2, 4, 8, 16] : List Nat).length ≤ SIZE_MAX ∧
    ∃ s, from_init ([1, 2, 4, 8, 16] : List Nat) = some s ∧
      size s = ([1, 2, 4, 8, 16] : List Nat).length ∧
      s.stack_of_removed = [] ∧
      vacant_key s = ([1, 2, 4, 8, 16] : List Nat).length ∧
      (∀ i, i < ([1, 2, 4, 8, 16] : List Nat).length →
        contains s i = true ∧ get s i = ([1, 2, 4, 8, 16] : List Nat)[i]?) ∧
      (∀ i, ([1, 2, 4, 8, 16] : List Nat).length ≤ i → contains s i = false) ∧
      to_list s = some [1, 2, 4, 8, 16] :=
  ⟨by decide, from_init_spec [1, 2, 4, 8, 16] (by decide)⟩

/-- C18 (reservation does not create slots).  A pool constructed by default or with
any capacity hint `c` is logically empty whatever `c` is: `size() == 0`, `empty()`
is true, `contains(k)` is false for every key, `vacant_key() == 0` and the first
insert returns key 0. -/
theorem reservation_creates_no_slots (c : Nat) (v : T) :
    (size (new : Slab T) = 0 ∧ empty (new : Slab T) = true ∧
      (∀ k, contains (new : Slab T) k = false) ∧ vacant_key (new : Slab T) = 0 ∧
      ∃ s', insert (new : Slab T) v = some (0, s')) ∧
    (size (with_capacity c : Slab T) = 0 ∧ empty (with_capacity c : Slab T) = true ∧
      (∀ k, contains (with_capacity c : Slab T) k = false) ∧
      vacant_key (with_capacity c : Slab T) = 0 ∧
      ∃ s', insert (with_capacity c : Slab T) v = some (0, s')) := by
  have hmain : ∀ s : Slab T, s.slots_pool = [] → s.stack_of_removed = [] →
      size s = 0 ∧ empty s = true ∧ (∀ k, contains s k = false) ∧ vacant_key s = 0 ∧
      ∃ s', insert s v = some (0, s') := by
    intro s h1 h2
    have hsz : size s = 0 := by
      unfold size size_t_sub SIZE_MOD
      simp [h1, h2]
    refine ⟨hsz, (empty_eq_true_iff s).mpr hsz, ?_, ?_, ?_⟩
    · intro k
      exact (contains_eq_false_iff s k).mpr (Or.inl (by simp [h1]))
    · rw [vacant_key_of_nil h2, h1]
      rfl
    · have hroom : s.slots_pool.length < SIZE_MAX := by
        rw [h1]
        simp [SIZE_MAX]
      have := insert_of_nil v h2 hroom
      rw [h1] at this
      exact ⟨_, this⟩
  exact ⟨hmain new rfl rfl, hmain (with_capacity c) rfl rfl⟩

/-- C19 as stated fails: in the example pool `begin()` is the cursor at position 1,
a position greater than 0 referencing an occupied slot; the backward step from it
stops at position 0, whose slot is vacant and which is not the position of `end()`. -/
theorem backward_step_counterexample :
    Reachable ex_pool ∧ Iterator.valid ex_pool (begin ex_pool) ∧ 0 < begin ex_pool ∧
    Iterator.prev ex_pool (begin ex_pool) = some 0 ∧ ¬ Iterator.valid ex_pool 0 := by
  rw [begin_ex_pool]
  refine ⟨ex_pool_reachable, Or.inl (by decide), by decide, by decide, ?_⟩
  rintro (h | h)
  · exact absurd h (by decide)
  · exact absurd h (by decide)

/-- C19, amended (cursor invariant).  For every pool, a cursor references an
occupied slot or is at the position of `end()`: this holds for `begin()`, for
`end()` and for every cursor positioned at an index up to the slot count, it is
preserved by the forward step from any cursor other than `end()`, and it is
preserved by the backward step from any cursor that has an occupied slot below its
position (any cursor other than `begin()`), which then lands on the nearest
occupied slot below, skipping the vacant ones. -/
theorem cursor_invariant (s : Slab T) :
    Iterator.valid s (begin s) ∧ Iterator.valid s (end_ s) ∧
    (∀ p, p ≤ s.slots_pool.length → Iterator.valid s (Iterator.new s p)) ∧
    (∀ pos, Iterator.valid s pos → pos ≠ end_ s →
      Iterator.valid s (Iterator.next s pos)) ∧
    (∀ pos, Iterator.valid s pos → (∃ j, j < pos ∧ contains s j = true) →
      ∃ q, Iterator.prev s pos = some q ∧ Iterator.valid s q ∧ contains s q = true ∧
        q < pos ∧ ∀ j, q < j → j < pos → contains s j = false) := by
  refine ⟨Iterator.valid_new s 0 (Nat.zero_le _),
    Iterator.valid_new s _ (Nat.le_refl _),
    fun p hp => Iterator.valid_new s p hp,
    fun pos h hne => Iterator.valid_next h hne, ?_⟩
  intro pos hv hex
  obtain ⟨q, hq, hcq, hlt, hbetween⟩ := Iterator.prev_spec s pos (Iterator.valid_le hv) hex
  exact ⟨q, hq, Or.inl hcq, hcq, hlt, hbetween⟩

/-- Instance of the amended cursor invariant: the backward step from `end()` of the
example pool, which has occupied slots below position 3. -/
theorem cursor_invariant_witness :
    Iterator.valid ex_pool 3 ∧ (∃ j, j < 3 ∧ contains ex_pool j = true) ∧
    ∃ q, Iterator.prev ex_pool 3 = some q ∧ Iterator.valid ex_pool q ∧
      contains ex_pool q = true ∧ q < 3 ∧ ∀ j, q < j → j < 3 → contains ex_pool j = false :=
  ⟨Or.inr rfl, ⟨2, by decide, by decide⟩,
    (cursor_invariant ex_pool).2.2.2.2 3 (Or.inr rfl) ⟨2, by decide, by decide⟩⟩

/-- The textual rendering on pools whose number of values fits the counter `int i`
of `out`: for every reachable pool holding at most `INT_MAX` values, `out` appends
to the stream exactly the renderings of the occupied values in traversal order,
with the separator between consecutive values only; for an empty pool nothing is
written; and `operator<<` is `out` with a single space as separator. -/
theorem textual_rendering_bounded (s : Slab T) (hs : Reachable s) (hsize : size s ≤ INT_MAX)
    (render : T → List Char) (stream : List Char) (separator : Char) :
    (∃ vals, to_list s = some vals ∧
      out s render stream separator =
        some (stream ++ [separator].intercalate (vals.map render))) ∧
    (empty s = true → out s render stream separator = some stream) ∧
    operator_shl s render stream = out s render stream ' ' := by
  have hout := out_of_size_le_INT_MAX hs hsize render stream separator
  refine ⟨⟨_, to_list_eq s, hout⟩, ?_, rfl⟩
  intro he
  have h0 : (s.slots_pool.filterMap id).length = 0 := by
    rw [filterMap_id_length, ← reachable_size hs]
    exact (empty_eq_true_iff s).mp he
  rw [hout, List.length_eq_zero.mp h0]
  simp [List.intercalate]

/-- Instance of the bounded rendering: the example pool written with a comma. -/
theorem textual_rendering_bounded_witness :
    Reachable ex_pool ∧ size ex_pool ≤ INT_MAX ∧
    out ex_pool (fun n => Nat.toDigits 10 n) ['>'] ',' = some ['>', '2', '0', ',', '3', '0'] := by
  refine ⟨ex_pool_reachable, by decide, ?_⟩
  obtain ⟨vals, hv, hout⟩ :=
    (textual_rendering_bounded ex_pool ex_pool_reachable (by decide)
      (fun n => Nat.toDigits 10 n) ['>'] ',').1
  rw [to_list_eq] at hv
  rw [hout, ← Option.some.inj hv]
  decide

/-- C20 (textual rendering) at a pool of 2^31 + 2 values, all occupied: the claim
asks `out` to write every value with the separator between consecutive values,
but the counter `int i` of `out` is incremented once per value and overflows when
it holds `INT_MAX`, which is undefined behaviour, so `out` has no defined result
there. -/
theorem out_int_overflow :
    Reachable big_pool ∧ size big_pool = 2147483650 ∧
    to_list big_pool = some (List.replicate 2147483650 0) ∧
    ∀ (render : Nat → List Char) (stream : List Char) (separator : Char),
      out big_pool render stream separator = none := by
  have hvals : big_pool.slots_pool.filterMap id = List.replicate 2147483650 0 := by
    show (List.replicate 2147483650 (some 0)).filterMap id = List.replicate 2147483650 0
    exact List.filterMap_replicate_of_some rfl
  refine ⟨big_pool_reachable, ?_, ?_, ?_⟩
  · rw [reachable_size big_pool_reachable, ← filterMap_id_length, hvals,
      List.length_replicate]
  · rw [to_list_eq, hvals]
  · intro render stream separator
    apply out_of_INT_MAX_lt
    rw [hvals, List.length_replicate]
    simp [INT_MAX]

/-! ## Verified properties: steps of a cursor, mutation, counting -/

theorem Iterator.new_least (s : Slab T) (p : Nat) (hp : p ≤ s.slots_pool.length) :
    p ≤ Iterator.new s p ∧ Iterator.new s p ≤ s.slots_pool.length ∧
    (Iterator.new s p < s.slots_pool.length → contains s (Iterator.new s p) = true) ∧
    (∀ j, p ≤ j → contains s j = true → Iterator.new s p ≤ j) := by
  obtain ⟨h1, h2, h3, h4⟩ := Iterator.new_spec s p hp
  refine ⟨h1, h2, h4, ?_⟩
  intro j hj hc
  by_contra hlt
  obtain ⟨v, hv⟩ := (contains_eq_true_iff s j).mp hc
  have := h3 j hj (by omega)
  rw [hv] at this
  simp at this

/-- C23 (forward step and positioning).  For every pool and every index `p` up to
the slot count, a cursor positioned at `p` ends at the least index `q >= p` whose
slot is occupied, or at the slot count if there is none; and the forward step from
a cursor at `p` below the slot count ends at the least index `q > p` whose slot is
occupied, or at the slot count if there is none, never beyond the slot count. -/
theorem forward_step_and_positioning (s : Slab T) (p : Nat) :
    (p ≤ s.slots_pool.length →
      p ≤ Iterator.new s p ∧ Iterator.new s p ≤ s.slots_pool.length ∧
      (Iterator.new s p < s.slots_pool.length → contains s (Iterator.new s p) = true) ∧
      (∀ j, p ≤ j → contains s j = true → Iterator.new s p ≤ j)) ∧
    (p < s.slots_pool.length →
      p < Iterator.next s p ∧ Iterator.next s p ≤ s.slots_pool.length ∧
      (Iterator.next s p < s.slots_pool.length →
        contains s (Iterator.next s p) = true) ∧
      (∀ j, p < j → contains s j = true → Iterator.next s p ≤ j)) := by
  constructor
  · exact Iterator.new_least s p
  · intro hp
    rw [Iterator.next_eq_new]
    obtain ⟨h1, h2, h3, h4⟩ := Iterator.new_least s (p + 1) hp
    exact ⟨h1, h2, h3, fun j hj hc => h4 j hj hc⟩

/-- Instance of the forward step: in the pool with slots `[20, vacant, vacant, 30]`
the step from position 0 ends at position 3, and positioning at 1 ends at 3. -/
theorem forward_step_and_positioning_witness :
    Iterator.next gap_pool 0 = 3 ∧
    Iterator.new gap_pool 1 = 3 := by
  have h := forward_step_and_positioning gap_pool
  obtain ⟨h1, h2, h3, h4⟩ := (h 0).2 (by decide)
  obtain ⟨g1, g2, g3, g4⟩ := (h 1).1 (by decide)
  have hc : contains gap_pool 3 = true := by
    decide
  have hle := h4 3 (by decide) hc
  have gle := g4 3 (by decide) hc
  have hnot : ∀ j, j < 3 →
      contains gap_pool j = true → j = 0 := by
    decide
  constructor
  · by_contra hne
    have hlt : Iterator.next gap_pool 0 < 3 := by
      omega
    have := hnot _ hlt (h3 (Nat.lt_trans hlt (by decide)))
    omega
  · by_contra hne
    have hlt : Iterator.new gap_pool 1 < 3 := by
      omega
    have := hnot _ hlt (g3 (Nat.lt_trans hlt (by decide)))
    omega

/-- C24 (backward step undoes forward step).  For every pool and every cursor
referencing an occupied slot at index `p`, a forward step followed by a backward
step returns the cursor to `p`, whatever runs of vacant slots lie between `p` and
the next occupied slot or the end; and a backward step from `end()` of a pool with
an occupied slot lands on the last occupied slot. -/
theorem backward_undoes_forward (s : Slab T) (p : Nat) (hp : contains s p = true) :
    Iterator.prev s (Iterator.next s p) = some p ∧
    ∃ q, Iterator.prev s (end_ s) = some q ∧ contains s q = true ∧
      ∀ j, q < j → contains s j = false := by
  have hlt := contains_lt hp
  constructor
  · rw [Iterator.next_eq_new]
    obtain ⟨h1, h2, h3, -⟩ := Iterator.new_spec s (p + 1) hlt
    obtain ⟨r, hr, hcr, hrlt, hbetween⟩ :=
      Iterator.prev_spec s (Iterator.new s (p + 1)) h2 ⟨p, by omega, hp⟩
    rw [hr]
    congr 1
    rcases Nat.lt_trichotomy r p with hlt' | heq | hgt
    · have := hbetween p hlt' (by omega)
      rw [hp] at this
      exact absurd this (by simp)
    · exact heq
    · obtain ⟨v, hv⟩ := (contains_eq_true_iff s r).mp hcr
      have := h3 r (by omega) hrlt
      rw [hv] at this
      simp at this
  · rw [end_eq]
    obtain ⟨q, hq, hcq, hqlt, hbetween⟩ :=
      Iterator.prev_spec s s.slots_pool.length (Nat.le_refl _) ⟨p, hlt, hp⟩
    refine ⟨q, hq, hcq, ?_⟩
    intro j hj
    by_cases hjl : j < s.slots_pool.length
    · exact hbetween j hj hjl
    · exact (contains_eq_false_iff s j).mpr (Or.inl (by omega))

/-- Instance of the round trip of a cursor: position 0 of the pool with slots
`[20, vacant, vacant, 30]`. -/
theorem backward_undoes_forward_witness :
    contains gap_pool 0 = true ∧
    (Iterator.prev gap_pool
        (Iterator.next gap_pool 0) = some 0 ∧
    ∃ q, Iterator.prev gap_pool
        (end_ gap_pool) = some q ∧
      contains gap_pool q = true ∧
      ∀ j, q < j → contains gap_pool j = false) :=
  ⟨by decide, backward_undoes_forward _ 0 (by decide)⟩

theorem get_assign_of_contains {s : Slab T} {k : Nat} (w : T) (hk : contains s k = true) :
    get_assign s k w = some ⟨s.slots_pool.set k (some w), s.stack_of_removed⟩ ∧
    Iterator.deref_assign s k w = some ⟨s.slots_pool.set k (some w), s.stack_of_removed⟩ := by
  have hlt := contains_lt hk
  unfold contains at hk
  simp only [hlt, dite_true] at hk
  unfold get_assign Iterator.deref_assign
  simp [hlt, hk]

/-- C25 (mutation through a cursor or `get`).  For every pool, every occupied key
`k` and every value `w`: the cursor positioned at `k` is at `k`, and assigning `w`
through it or through `get(k)` makes `get(k) == w` and leaves `contains(j)` for
every `j`, `size()`, `vacant_key()`, the stack of removed keys, the slot count and
the value of every other key unchanged. -/
theorem assign_keeps_occupancy (s : Slab T) (k : Nat) (w : T) (hk : contains s k = true) :
    Iterator.new s k = k ∧
    ∃ s', get_assign s k w = some s' ∧ Iterator.deref_assign s k w = some s' ∧
      get s' k = some w ∧
      (∀ j, contains s' j = contains s j) ∧
      size s' = size s ∧ vacant_key s' = vacant_key s ∧
      s'.stack_of_removed = s.stack_of_removed ∧
      s'.slots_pool.length = s.slots_pool.length ∧
      (∀ j, j ≠ k → get s' j = get s j) := by
  have hlt := contains_lt hk
  obtain ⟨v, hv⟩ := (contains_eq_true_iff s k).mp hk
  obtain ⟨h1, h2⟩ := get_assign_of_contains w hk
  have hself : (s.slots_pool.set k (some w))[k]? = some (some w) := by
    simp [hlt]
  have hother : ∀ j, j ≠ k → (s.slots_pool.set k (some w))[j]? = s.slots_pool[j]? :=
    fun j hj => List.getElem?_set_ne (Ne.symm hj)
  refine ⟨Iterator.new_of_occupied hv, _, h1, h2, ?_, ?_, ?_, ?_, rfl, ?_, ?_⟩
  · rw [get_eq_join]
    show ((s.slots_pool.set k (some w))[k]?).join = some w
    rw [hself]
    rfl
  · intro j
    by_cases hj : j = k
    · subst hj
      rw [hk]
      exact (contains_eq_true_iff _ j).mpr ⟨w, hself⟩
    · exact contains_congr (hother j hj)
  · unfold size
    simp
  · unfold vacant_key
    simp
  · simp
  · intro j hj
    exact get_congr (hother j hj)

/-- Instance of the mutation through `get`: key 1 of the example pool receives 99. -/
theorem assign_keeps_occupancy_witness :
    contains ex_pool 1 = true ∧
    (Iterator.new ex_pool 1 = 1 ∧
    ∃ s', get_assign ex_pool 1 99 = some s' ∧ Iterator.deref_assign ex_pool 1 99 = some s' ∧
      get s' 1 = some 99 ∧
      (∀ j, contains s' j = contains ex_pool j) ∧
      size s' = size ex_pool ∧ vacant_key s' = vacant_key ex_pool ∧
      s'.stack_of_removed = ex_pool.stack_of_removed ∧
      s'.slots_pool.length = ex_pool.slots_pool.length ∧
      (∀ j, j ≠ 1 → get s' j = get ex_pool j)) :=
  ⟨by decide, assign_keeps_occupancy ex_pool 1 99 (by decide)⟩

theorem iterate_next_new (s : Slab T) :
    ∀ n p, s.slots_pool.length - p = n → p ≤ s.slots_pool.length →
      Nat.iterate (Iterator.next s) ((s.slots_pool.drop p).countP Option.isSome)
          (Iterator.new s p) = s.slots_pool.length ∧
      ∀ k, k < (s.slots_pool.drop p).countP Option.isSome →
        Nat.iterate (Iterator.next s) k (Iterator.new s p) < s.slots_pool.length := by
  intro n
  induction n with
  | zero =>
    intro p hn hp
    have hpe : p = s.slots_pool.length := by omega
    subst hpe
    rw [Iterator.new_of_ge (Nat.le_refl _)]
    simp
  | succ n ih =>
    intro p hn hp
    have hlt : p < s.slots_pool.length := by omega
    rw [List.drop_eq_getElem_cons hlt]
    obtain ⟨ih1, ih2⟩ := ih (p + 1) (by omega) (by omega)
    cases hv : s.slots_pool[p] with
    | none =>
      have hq : s.slots_pool[p]? = some none := by
        rw [List.getElem?_eq_getElem hlt, hv]
      rw [Iterator.new_of_vacant hq]
      simp only [List.countP_cons, Option.isSome_none, Bool.false_eq_true, if_false,
        Nat.add_zero]
      exact ⟨ih1, ih2⟩
    | some v =>
      have hq : s.slots_pool[p]? = some (some v) := by
        rw [List.getElem?_eq_getElem hlt, hv]
      rw [Iterator.new_of_occupied hq]
      simp only [List.countP_cons, Option.isSome_some, if_true]
      constructor
      · rw [Function.iterate_succ_apply, Iterator.next_eq_new]
        exact ih1
      · intro k hk
        cases k with
        | zero => exact hlt
        | succ k =>
          rw [Function.iterate_succ_apply, Iterator.next_eq_new]
          exact ih2 k (by omega)

/-- C26 (`size()` counts the occupied slots).  For every pool reachable from a
constructor by `insert`, `remove` and `take`: the stack of removed keys is never
longer than the slot vector, so the unsigned subtraction in `size()` does not wrap;
`size()` is the number of occupied slots, which is the length of the traversal;
and repeated forward steps from `begin()` reach `end()` after exactly `size()`
steps, not before. -/
theorem size_counts_occupied (s : Slab T) (hs : Reachable s) :
    s.stack_of_removed.length ≤ s.slots_pool.length ∧
    size s = s.slots_pool.length - s.stack_of_removed.length ∧
    size s = s.slots_pool.countP Option.isSome ∧
    (∃ vals, to_list s = some vals ∧ vals.length = size s) ∧
    Nat.iterate (Iterator.next s) (size s) (begin s) = end_ s ∧
    (∀ k, k < size s → Nat.iterate (Iterator.next s) k (begin s) ≠ end_ s) := by
  have hi := reachable_inv hs
  have hsize := reachable_size hs
  obtain ⟨h1, h2⟩ := iterate_next_new s _ 0 rfl (Nat.zero_le _)
  rw [List.drop_zero, ← hsize] at h1 h2
  refine ⟨hi.stack_length_le, hi.size_eq, hsize,
    ⟨_, to_list_eq s, by rw [filterMap_id_length, hsize]⟩, ?_, ?_⟩
  · rw [end_eq]
    exact h1
  · intro k hk
    rw [end_eq]
    exact Nat.ne_of_lt (h2 k hk)

/-- Instance of the count at the example pool, which holds two values. -/
theorem size_counts_occupied_witness :
    Reachable ex_pool ∧
    (ex_pool.stack_of_removed.length ≤ ex_pool.slots_pool.length ∧
    size ex_pool = ex_pool.slots_pool.length - ex_pool.stack_of_removed.length ∧
    size ex_pool = ex_pool.slots_pool.countP Option.isSome ∧
    (∃ vals, to_list ex_pool = some vals ∧ vals.length = size ex_pool) ∧
    Nat.iterate (Iterator.next ex_pool) (size ex_pool) (begin ex_pool) = end_ ex_pool ∧
    (∀ k, k < size ex_pool →
      Nat.iterate (Iterator.next ex_pool) k (begin ex_pool) ≠ end_ ex_pool)) :=
  ⟨ex_pool_reachable, size_counts_occupied ex_pool ex_pool_reachable⟩

/-! ## Verified properties: capacities -/

theorem Tracked.insert_tracked_of_nil (grow : Nat → Nat) (t : Tracked T) (obj : T)
    (hnil : t.pool.stack_of_removed = []) (hroom : t.pool.slots_pool.length < SIZE_MAX) :
    Tracked.insert grow t obj =
      some (t.pool.slots_pool.length,
        ⟨⟨t.pool.slots_pool ++ [some obj], []⟩,
          vector_grow grow t.pool.slots_pool.length t.slots_capacity, t.stack_capacity⟩) := by
  unfold Tracked.insert
  rw [Slab.insert_of_nil obj hnil hroom]
  simp [hnil]

theorem Tracked.insert_all_fresh (grow : Nat → Nat) (vals : List T) :
    ∀ (pre : List T) (cap stk : Nat), pre.length + vals.length ≤ cap →
      pre.length + vals.length ≤ SIZE_MAX →
      Tracked.insert_all grow ⟨⟨pre.map some, []⟩, cap, stk⟩ vals =
        some (List.range' pre.length vals.length,
          ⟨⟨(pre ++ vals).map some, []⟩, cap, stk⟩) := by
  induction vals with
  | nil =>
    intro pre cap stk _ _
    simp [Tracked.insert_all]
  | cons v vals ih =>
    intro pre cap stk hcap hmax
    simp only [List.length_cons] at hcap hmax
    have hins := Tracked.insert_tracked_of_nil grow (⟨⟨pre.map some, []⟩, cap, stk⟩ : Tracked T) v rfl
      (by simp only [List.length_map]; omega)
    have hkeep : vector_grow grow pre.length cap = cap := by
      unfold vector_grow
      rw [if_pos (by omega)]
    simp only [List.length_map, hkeep] at hins
    have hpre : List.map some pre ++ [some v] = (pre ++ [v]).map some := by simp
    rw [hpre] at hins
    have ih' := ih (pre ++ [v]) cap stk
      (by simp only [List.length_append, List.length_singleton]; omega)
      (by simp only [List.length_append, List.length_singleton]; omega)
    simp only [List.length_append, List.length_singleton, List.append_assoc,
      List.singleton_append] at ih'
    simp only [Tracked.insert_all, hins, ih', List.length_cons, List.range'_succ]

/-- C21 (capacity growth).  For every capacity hint `c` and every growth policy of
the vector: a pool constructed with the hint reports `slots_capacity() == c` and
`stack_capacity() == c/2` after `c` inserts, which return the keys `0..c-1`;
inserting one more element makes `slots_capacity()` exceed `c` while
`stack_capacity()` stays `c/2`, `size()` is `c + 1`, and every key `0..c-1` still
maps to the value inserted under it. -/
theorem capacity_growth (grow : Nat → Nat) (c : Nat) (vals : List T) (v : T)
    (hc : c < SIZE_MAX) (hlen : vals.length = c) :
    ∃ keys t, Tracked.insert_all grow (Tracked.with_capacity c) vals = some (keys, t) ∧
      keys = List.range c ∧ t.slots_capacity = c ∧ t.stack_capacity = c / 2 ∧
      ∃ k t', Tracked.insert grow t v = some (k, t') ∧ k = c ∧
        c < t'.slots_capacity ∧ t'.stack_capacity = c / 2 ∧ size t'.pool = c + 1 ∧
        ∀ i, i < c → get t'.pool i = vals[i]? := by
  have hres : ∀ n, vector_reserve 0 n = n := by
    intro n
    unfold vector_reserve
    split
    · rfl
    · omega
  have hall := Tracked.insert_all_fresh grow vals [] c (c / 2)
    (by simp only [List.length_nil]; omega) (by simp only [List.length_nil]; omega)
  simp only [List.length_nil, List.nil_append, List.map_nil, hlen] at hall
  have hstart : (Tracked.with_capacity c : Tracked T) = ⟨⟨[], []⟩, c, c / 2⟩ := by
    simp only [Tracked.with_capacity, Slab.with_capacity, hres]
  have hins := Tracked.insert_tracked_of_nil grow
    (⟨⟨vals.map some, []⟩, c, c / 2⟩ : Tracked T) v rfl
    (by simp only [List.length_map]; omega)
  simp only [List.length_map, hlen] at hins
  refine ⟨_, _, by rw [hstart]; exact hall, (List.range_eq_range' (n := c)).symm, rfl, rfl,
    _, _, hins, rfl, ?_, rfl, ?_, ?_⟩
  · show c < vector_grow grow c c
    unfold vector_grow
    rw [if_neg (Nat.lt_irrefl c)]
    exact Nat.lt_of_lt_of_le (Nat.lt_succ_self c) (Nat.le_max_right _ _)
  · show size (⟨vals.map some ++ [some v], []⟩ : Slab T) = c + 1
    unfold size size_t_sub SIZE_MOD
    unfold SIZE_MAX at hc
    simp only [List.length_append, List.length_map, List.length_singleton, List.length_nil,
      hlen]
    omega
  · intro i hi
    rw [get_eq_join]
    show ((vals.map some ++ [some v])[i]?).join = vals[i]?
    rw [List.getElem?_append_left (by simp only [List.length_map]; omega),
      List.getElem?_map, List.getElem?_eq_getElem (by omega)]
    rfl

/-- Instance of the capacity growth: hint 3, doubling growth, values 7, 8, 9, then 10. -/
theorem capacity_growth_witness :
    (3 : Nat) < SIZE_MAX ∧ ([7, 8, 9] : List Nat).length = 3 ∧
    ∃ keys t, Tracked.insert_all (fun n => 2 * n) (Tracked.with_capacity 3) [7, 8, 9] =
        some (keys, t) ∧
      keys = List.range 3 ∧ t.slots_capacity = 3 ∧ t.stack_capacity = 3 / 2 ∧
      ∃ k t', Tracked.insert (fun n => 2 * n) t 10 = some (k, t') ∧ k = 3 ∧
        3 < t'.slots_capacity ∧ t'.stack_capacity = 3 / 2 ∧ size t'.pool = 3 + 1 ∧
        ∀ i, i < 3 → get t'.pool i = ([7, 8, 9] : List Nat)[i]? :=
  ⟨by decide, by decide, capacity_growth (fun n => 2 * n) 3 [7, 8, 9] 10 (by decide) (by decide)⟩

end Slab
